import Mathlib

/-!
Verification development for the LLMNodeGraph core (`src/core/graph.py`,
`src/core/node.py`, `src/core/command.py`, `src/core/command_manager.py`,
`src/core/assembler.py`, `src/core/provider_manager.py`,
`src/services/worker.py`, `src/services/llm_queue_manager.py`).

Modelling conventions:
* Python `str` is modelled as `List Char` (`Str`).
* Python `dict` (insertion ordered, unique keys) is modelled as an
  association list `List (Str × α)` with lookup `dget`, assignment
  `dinsert` (update in place when the key is present, append otherwise)
  and `del` as `derase`.
* Python `float` coordinates are modelled as `Int`: the claims below
  only move coordinates through assignment, equality, `min`/`max` and
  addition, which are exact, and none depends on fractional values.
  Token estimates (`len(text)/4`) are modelled in exact quarter-token
  units (all quantities scaled by 4, see `enforce_limit`): `len/4` is a
  quarter-integer that binary floating point represents exactly for all
  realistic lengths, so every comparison and truncation in
  `_enforce_limit` is reproduced exactly by the scaled integers.
* `uuid.uuid4()` is modelled by threading an explicit supply of fresh
  identifiers; freshness/distinctness is a hypothesis of the theorems.
* Python objects are mutable and aliased: commands hold references to
  the very `Node` objects stored in the graph, and a node removed from
  the graph keeps mutating state that `undo` later re-inserts.  A node's
  `id` never changes, so object identity coincides with the id; the
  model therefore keeps a `heap` of all node objects keyed by id, and
  the graph's `nodes` dict is the heap restricted to the `present` key
  list.  `Link` objects are never mutated, so they are plain values.
-/

namespace LLMNG

/-- Python strings, as lists of characters. -/
abbrev Str := List Char

/-- Dictionary lookup `d.get(k)` / `d[k]` (keys of any decidable type;
string keys everywhere except the `Option Str`-keyed `id_map` of
`merge_graph`). -/
def dget {κ α : Type} [DecidableEq κ] (d : List (κ × α)) (k : κ) : Option α :=
  match d with
  | [] => none
  | (k', v) :: rest => if k' = k then some v else dget rest k

/-- Dictionary assignment `d[k] = v`: update in place if present, append otherwise. -/
def dinsert {κ α : Type} [DecidableEq κ] (d : List (κ × α)) (k : κ) (v : α) : List (κ × α) :=
  match d with
  | [] => [(k, v)]
  | (k', v') :: rest => if k' = k then (k, v) :: rest else (k', v') :: dinsert rest k v

/-- Dictionary deletion `del d[k]` (callers guard membership; absent key is a no-op). -/
def derase {κ α : Type} [DecidableEq κ] (d : List (κ × α)) (k : κ) : List (κ × α) :=
  match d with
  | [] => []
  | (k', v') :: rest => if k' = k then rest else (k', v') :: derase rest k

/-- The keys of a dictionary, in order. -/
def dkeys {κ α : Type} (d : List (κ × α)) : List κ := d.map (fun p => p.1)

@[simp] theorem dget_nil {κ α : Type} [DecidableEq κ] (k : κ) : dget ([] : List (κ × α)) k = none := rfl

@[simp] theorem dget_dinsert_self {κ α : Type} [DecidableEq κ] (d : List (κ × α)) (k : κ) (v : α) :
    dget (dinsert d k v) k = some v := by
  induction d with
  | nil => simp [dinsert, dget]
  | cons p rest ih =>
    by_cases h : p.1 = k
    · simp [dinsert, dget, h]
    · simp [dinsert, dget, h, ih]

theorem dget_dinsert_ne {κ α : Type} [DecidableEq κ] (d : List (κ × α)) (k k' : κ) (v : α) (h : k' ≠ k) :
    dget (dinsert d k v) k' = dget d k' := by
  induction d with
  | nil => simp [dinsert, dget, Ne.symm h]
  | cons p rest ih =>
    by_cases hk : p.1 = k
    · subst hk
      simp only [dinsert, if_pos rfl, dget]
      rw [if_neg (Ne.symm h), if_neg (Ne.symm h)]
    · simp only [dinsert, if_neg hk, dget]
      by_cases hk' : p.1 = k'
      · simp [hk']
      · simp [hk', ih]

theorem dget_derase_ne {κ α : Type} [DecidableEq κ] (d : List (κ × α)) (k k' : κ) (h : k' ≠ k) :
    dget (derase d k) k' = dget d k' := by
  induction d with
  | nil => simp [derase]
  | cons p rest ih =>
    simp only [derase]
    by_cases hk : p.1 = k
    · rw [if_pos hk]
      simp only [dget]
      rw [if_neg (fun hh => h (hh.symm.trans hk))]
    · rw [if_neg hk]
      simp only [dget]
      by_cases hk' : p.1 = k'
      · rw [if_pos hk', if_pos hk']
      · rw [if_neg hk', if_neg hk', ih]

theorem dget_eq_none_of_not_mem {κ α : Type} [DecidableEq κ] (d : List (κ × α)) (k : κ)
    (h : k ∉ dkeys d) : dget d k = none := by
  induction d with
  | nil => rfl
  | cons p rest ih =>
    simp only [dkeys, List.map_cons, List.mem_cons, not_or] at h
    simp only [dget]
    rw [if_neg (Ne.symm h.1)]
    exact ih h.2

theorem dget_derase_self {κ α : Type} [DecidableEq κ] (d : List (κ × α)) (k : κ)
    (h : (dkeys d).Nodup) : dget (derase d k) k = none := by
  induction d with
  | nil => simp [derase]
  | cons p rest ih =>
    simp only [dkeys, List.map_cons, List.nodup_cons] at h
    obtain ⟨hp, hrest⟩ := h
    simp only [derase]
    by_cases hk : p.1 = k
    · rw [if_pos hk]
      subst hk
      exact dget_eq_none_of_not_mem rest p.1 hp
    · rw [if_neg hk]
      simp only [dget]
      rw [if_neg hk]
      exact ih hrest

/-- `src/core/node.py` `NodeConfig`. -/
structure NodeConfig where
  model : Str
  provider : Str
  max_tokens : Int
  trace_depth : Int
deriving DecidableEq

/-- `src/core/node.py` `Link`. -/
structure Link where
  source_id : Str
  target_id : Str
  id : Str
deriving DecidableEq

/-- `src/core/node.py` `Node` (UI coordinates as exact integers, see
the module comment). -/
structure Node where
  id : Str
  config : NodeConfig
  prompt : Str
  cached_output : Str
  is_dirty : Bool
  name : Str
  input_links : List Str
  pos_x : Int
  pos_y : Int
  width : Int
  height : Int
  prompt_height : Int
  output_height : Int
deriving DecidableEq

/-- `src/core/graph.py` `Graph`, together with the object heap (see the
module comment): the Python `self.nodes` dict is `heap` restricted to
the `present` key list; `links` is the `self.links` dict. -/
structure Graph where
  heap : List (Str × Node)
  present : List Str
  links : List (Str × Link)
  global_token_limit : Int
deriving DecidableEq

/-- `graph.nodes[id]` (as a partial lookup). -/
def Graph.getNode (g : Graph) (id : Str) : Option Node :=
  if id ∈ g.present then dget g.heap id else none

/-- Mutate the node object with the given id (no-op if the object does not exist). -/
def Graph.updNode (g : Graph) (id : Str) (f : Node → Node) : Graph :=
  match dget g.heap id with
  | some n => { g with heap := dinsert g.heap id (f n) }
  | none => g

/-- `Graph.add_node`: `self.nodes[node.id] = node`. -/
def Graph.add_node (g : Graph) (n : Node) : Graph :=
  { g with heap := dinsert g.heap n.id n,
           present := if n.id ∈ g.present then g.present else g.present ++ [n.id] }

/-- The children of `nid` (`[l.target_id for l in self.links.values() if l.source_id == node_id]`). -/
def Graph.childTargets (g : Graph) (nid : Str) : List Str :=
  (g.links.filter (fun p => p.2.source_id = nid)).map (fun p => p.2.target_id)

/-- Number of present nodes that are not dirty (used only to size the
recursion fuel of `mark_dirty`; each recursive layer that does any work
first turns a clean node dirty, so the call depth of the Python
recursion is bounded by this count plus one). -/
def Graph.cleanCount (g : Graph) : Nat :=
  (g.present.filter (fun id =>
    match dget g.heap id with
    | some n => !n.is_dirty
    | none => false)).length

/-- `Graph.mark_dirty`, with explicit fuel standing for the call stack:
return if the node is absent or already dirty, otherwise set it dirty
and recurse into every link-target whose source is this node. -/
def Graph.markDirtyAux : Nat → Graph → Str → Graph
  | 0, g, _ => g
  | fuel+1, g, nid =>
    if nid ∈ g.present then
      match dget g.heap nid with
      | none => g
      | some node =>
        if node.is_dirty then g
        else
          let g' : Graph := { g with heap := dinsert g.heap nid { node with is_dirty := true } }
          (g'.childTargets nid).foldl (fun h c => Graph.markDirtyAux fuel h c) g'
    else g

/-- `Graph.mark_dirty` with sufficient fuel (the fuel-stabilisation
theorem for claim C4 shows the result does not change with more fuel). -/
def Graph.mark_dirty (g : Graph) (nid : Str) : Graph :=
  Graph.markDirtyAux (g.cleanCount + 1) g nid

/-- `Graph.remove_link`: delete the link, drop it from the target's
`input_links` (if the target is still present) and mark the target dirty. -/
def Graph.remove_link (g : Graph) (lid : Str) : Graph :=
  match dget g.links lid with
  | none => g
  | some link =>
    let g1 : Graph := { g with links := derase g.links lid }
    if link.target_id ∈ g1.present then
      let g2 : Graph :=
        match dget g1.heap link.target_id with
        | some tn =>
          if lid ∈ tn.input_links then
            let tn' : Node := { tn with input_links := tn.input_links.erase lid }
            { g1 with heap := dinsert g1.heap link.target_id tn' }
          else g1
        | none => g1
      g2.mark_dirty link.target_id
    else g1

/-- `Graph.remove_node`: delete the dict entry (if present), then remove
every link touching the node. -/
def Graph.remove_node (g : Graph) (nid : Str) : Graph :=
  let g1 : Graph :=
    if nid ∈ g.present then { g with present := g.present.erase nid } else g
  let toRemove : List Str :=
    (g1.links.filter (fun p => p.2.source_id = nid ∨ p.2.target_id = nid)).map (fun p => p.1)
  toRemove.foldl Graph.remove_link g1

/-- `Graph.add_link`: create a `Link` (its `uuid4` id is the explicit
`lid` argument), store it, append it to the target's `input_links` when
the target exists, and optionally mark the target dirty. -/
def Graph.add_link (g : Graph) (lid source_id target_id : Str) (trigger_dirty : Bool) : Graph :=
  let link : Link := { source_id := source_id, target_id := target_id, id := lid }
  let g1 : Graph := { g with links := dinsert g.links lid link }
  if target_id ∈ g1.present then
    let g2 : Graph := g1.updNode target_id
      (fun tn => { tn with input_links := tn.input_links ++ [lid] })
    if trigger_dirty then g2.mark_dirty target_id else g2
  else g1

/-- `Graph.get_input_nodes`: source nodes of the node's `input_links`,
in list order, skipping dangling link or node ids. -/
def Graph.get_input_nodes (g : Graph) (nid : Str) : List Node :=
  match g.getNode nid with
  | none => []
  | some node =>
    node.input_links.foldr (fun lid acc =>
      match dget g.links lid with
      | some l =>
        match g.getNode l.source_id with
        | some src => src :: acc
        | none => acc
      | none => acc) []

/-- `Graph.is_name_unique`: an empty (falsy) name is always unique;
otherwise scan all nodes, skipping `exclude_node_id`.  A Python `None`
name behaves like the empty string under `if not name`. -/
def Graph.is_name_unique (g : Graph) (name : Str) (exclude_node_id : Option Str) : Bool :=
  if name = [] then true
  else
    g.present.all (fun id =>
      match dget g.heap id with
      | some n => decide (some id = exclude_node_id) || decide (n.name ≠ name)
      | none => true)

/-- A `Node` with the `node.py` dataclass defaults and the given id. -/
def defNode (i : Str) : Node :=
  { id := i
    config := { model := "gpt-4o".toList, provider := "Default".toList,
                max_tokens := 16000, trace_depth := 2 }
    prompt := []
    cached_output := []
    is_dirty := false
    name := []
    input_links := []
    pos_x := 0
    pos_y := 0
    width := 300
    height := 450
    prompt_height := 100
    output_height := 160 }

/-- C9: for every graph and node whose id is already present, `add_node`
silently replaces the stored node under that id (lookup of that id now
yields the new node), leaves every other node's lookup unchanged, and
leaves the links dict and the node-id set untouched, so links that
referenced the old node now resolve to the replacement. -/
theorem C9_add_node_silently_replaces (g : Graph) (n : Node) (h : n.id ∈ g.present) :
    (g.add_node n).getNode n.id = some n ∧
    (∀ id, id ≠ n.id → (g.add_node n).getNode id = g.getNode id) ∧
    (g.add_node n).links = g.links ∧
    (g.add_node n).present = g.present := by
  refine ⟨?_, ?_, rfl, ?_⟩
  · simp [Graph.add_node, Graph.getNode, h, dget_dinsert_self]
  · intro id hid
    simp [Graph.add_node, Graph.getNode, h, dget_dinsert_ne _ _ _ _ hid]
  · simp [Graph.add_node, h]

/-- Concrete one-node graph used by the C9 witness. -/
def gW9 : Graph :=
  { heap := [("a".toList, defNode "a".toList)]
    present := ["a".toList]
    links := []
    global_token_limit := 16384 }

/-- Replacement node for the C9 witness: same id, different prompt. -/
def nW9 : Node := { defNode "a".toList with prompt := "new".toList }

/-- Witness for C9 at a concrete graph and colliding node. -/
theorem C9_add_node_silently_replaces_witness :
    (gW9.add_node nW9).getNode nW9.id = some nW9 ∧
    (∀ id, id ≠ nW9.id → (gW9.add_node nW9).getNode id = gW9.getNode id) ∧
    (gW9.add_node nW9).links = gW9.links ∧
    (gW9.add_node nW9).present = gW9.present :=
  C9_add_node_silently_replaces gW9 nW9 (by decide)

/-- C10: for every graph and every exclusion id, `is_name_unique` on the
empty (falsy, i.e. `""` or `None`) name returns `True`, no matter which
nodes exist or how many of them have an empty name. -/
theorem C10_is_name_unique_empty (g : Graph) (exclude_node_id : Option Str) :
    g.is_name_unique [] exclude_node_id = true := by
  simp [Graph.is_name_unique]

/-! ### `src/core/assembler.py` (`ContextAssembler`) -/

/-- `\w` of Python's `re` (ASCII part; no verified claim involves
non-ASCII word characters). -/
def isWordChar (c : Char) : Bool := c.isAlphanum || c = '_'

theorem length_dropWhile_le (p : Char → Bool) (l : List Char) :
    (l.dropWhile p).length ≤ l.length := by
  induction l with
  | nil => simp
  | cons c rest ih =>
    by_cases h : p c
    · simp only [List.dropWhile, h]
      exact Nat.le_succ_of_le ih
    · simp [List.dropWhile, h]

/-- `re.findall(r'@(\w+)', s)` (fuelled so the scan is structurally
recursive and kernel-computable; the fuel bounds the number of consumed
characters, so `fuel = s.length` never runs out — see `findRefs_eq`):
the captured groups of each non-overlapping match, scanning left to
right, each key a maximal nonempty run of word characters after an `@`. -/
def findRefsAux : Nat → Str → List Str
  | 0, _ => []
  | _+1, [] => []
  | fuel+1, '@' :: rest =>
    let key := rest.takeWhile isWordChar
    if key = [] then findRefsAux fuel rest
    else key :: findRefsAux fuel (rest.dropWhile isWordChar)
  | fuel+1, _ :: rest => findRefsAux fuel rest

def findRefs (s : Str) : List Str := findRefsAux s.length s

/-- `re.sub(r'@(\w+)', replace, s)` where `replace` substitutes the
mapped output for keys of connected inputs and keeps the literal match
otherwise (`ContextAssembler._inject_references`'s inner function);
fuelled like `findRefsAux`. -/
def subRefsAux (refMap : List (Str × Str)) : Nat → Str → Str
  | 0, s => s
  | _+1, [] => []
  | fuel+1, '@' :: rest =>
    let key := rest.takeWhile isWordChar
    if key = [] then '@' :: subRefsAux refMap fuel rest
    else
      (match dget refMap key with
       | some v => v
       | none => '@' :: key) ++ subRefsAux refMap fuel (rest.dropWhile isWordChar)
  | fuel+1, c :: rest => c :: subRefsAux refMap fuel rest

def subRefs (refMap : List (Str × Str)) (s : Str) : Str := subRefsAux refMap s.length s

/-- `"sep".join(parts)`. -/
def joinSep (sep : Str) : List Str → Str
  | [] => []
  | [s] => s
  | s :: rest => s ++ sep ++ joinSep sep rest

/-- The reference map of `_inject_references`:
`{n.id: n.cached_output for n in input_nodes}` (later entries win, as in
a Python dict comprehension). -/
def refMap (g : Graph) (nid : Str) : List (Str × Str) :=
  (g.get_input_nodes nid).foldl (fun m n => dinsert m n.id n.cached_output) []

/-- `ContextAssembler._inject_references`. -/
def inject_references (g : Graph) (prompt : Str) (node : Node) : Str :=
  subRefs (refMap g node.id) prompt

/-- `ContextAssembler._gather_history`, structurally recursive on the
fuel `depth.toNat` (the Python recursion decreases `depth` by one per
hop and stops at `depth <= 0`, so the fuel never runs out when entered
with `fuel = depth.toNat`; the `0` fuel branch below is unreachable
because `fuel = 0` forces `depth ≤ 0`). -/
def gatherAux (g : Graph) : Nat → Node → Int → Str
  | fuel, node, depth =>
    if depth ≤ 0 ∨ node.input_links = [] then []
    else
      match fuel with
      | 0 => []
      | fuel'+1 =>
        match node.input_links with
        | [] => []
        | link_id :: _ =>
          match dget g.links link_id with
          | none => []
          | some link =>
            match g.getNode link.source_id with
            | none => []
            | some parent =>
              let parent_history := gatherAux g fuel' parent (depth - 1)
              let parts := (if parent_history = [] then [] else [parent_history]) ++
                (if parent.cached_output = [] then [] else [parent.cached_output])
              joinSep ['\n'] parts

def gather_history (g : Graph) (node : Node) (depth : Int) : Str :=
  gatherAux g depth.toNat node depth

/-- The primary-parent test inside `assemble`'s implicit-context loop:
`node.input_links and inp.id == self.graph.links[node.input_links[0]].source_id`.
Python indexes `self.graph.links` directly, raising `KeyError` on a
dangling first input-link id; the theorems below assume (graph
invariant) that the id resolves, in which case the `none` branch here is
unreachable. -/
def isPrimaryInput (g : Graph) (node : Node) (inp : Node) : Bool :=
  match node.input_links with
  | [] => false
  | lid :: _ =>
    match dget g.links lid with
    | some l => inp.id = l.source_id
    | none => false

/-- The `implicit_context` string built by `assemble` steps 2–3: the
cached outputs of connected inputs that are not the history-covered
primary parent (skipped only when `trace_depth > 0`), not explicitly
`@`-referenced in the prompt, and non-empty, joined by blank lines. -/
def implicit_context (g : Graph) (node : Node) : Str :=
  let referenced := findRefs node.prompt
  joinSep "\n\n".toList
    (((g.get_input_nodes node.id).filter (fun inp =>
        !(decide (0 < node.config.trace_depth) && isPrimaryInput g node inp) &&
        (!referenced.contains inp.id && !decide (inp.cached_output = [])))).map
      (fun inp => inp.cached_output))

/-- Python `s[-k:]` for `k ≥ 0`: the last `k` characters (`k = 0` gives
the whole string — `s[-0:] = s[0:]`). -/
def pyTailSlice (s : Str) (k : Int) : Str :=
  if k = 0 then s else s.drop (s.length - k.toNat)

/-- `ContextAssembler._enforce_limit`, in exact quarter-token units:
the Python floats `prompt_tokens = len(prompt)/4`,
`history_tokens = len(history)/4`, `total`, and
`budget_for_history = limit - prompt_tokens` are quarter-integers that
binary floating point represents exactly, so each float comparison
below is the same comparison scaled by 4:
`total <= limit  ⟺  len(h) + len(p) ≤ 4*limit`,
`budget_for_history <= 0  ⟺  4*limit - len(p) ≤ 0`,
`chars_to_keep = int(budget_for_history * 4) = 4*limit - len(p)`, and
`int(total - limit)` (positive, so truncation = floor)
`= (len(h) + len(p) - 4*limit) / 4` in integer division. -/
def enforce_limit (history prompt : Str) (limit : Int) : Str :=
  let lenP : Int := prompt.length
  let lenH : Int := history.length
  if lenP + lenH ≤ 4 * limit then
    if history = [] then prompt else history ++ '\n' :: prompt
  else
    let chars_to_keep : Int := 4 * limit - lenP
    if chars_to_keep ≤ 0 then prompt
    else
      if chars_to_keep < lenH then
        let truncated := pyTailSlice history chars_to_keep
        let dropped : Int := (lenH + lenP - 4 * limit) / 4
        "[...Truncated by ".toList ++ (toString dropped).toList ++ " tokens...]".toList ++
          '\n' :: truncated ++ '\n' :: prompt
      else history ++ '\n' :: prompt

/-- The local `context_block` of `assemble`:
`history_text + ("\n\n" + implicit_context if implicit_context else "")`. -/
def context_block (g : Graph) (node : Node) : Str :=
  gather_history g node node.config.trace_depth ++
    (if implicit_context g node = [] then []
     else "\n\n".toList ++ implicit_context g node)

/-- `ContextAssembler.assemble` (the locally built `full_text` in the
source is dead code — the returned value is
`_enforce_limit(context_block, final_prompt, max_tokens)`). -/
def assemble (g : Graph) (node : Node) : Str :=
  enforce_limit (context_block g node) (inject_references g node.prompt node)
    node.config.max_tokens

theorem enforce_limit_suffix (history prompt : Str) (limit : Int) :
    prompt <:+ enforce_limit history prompt limit := by
  unfold enforce_limit
  dsimp only
  split
  · split
    · exact List.suffix_refl _
    · exact (List.suffix_cons _ _).trans (List.suffix_append _ _)
  · split
    · exact List.suffix_refl _
    · split
      · exact (List.suffix_cons '\n' prompt).trans (List.suffix_append _ _)
      · exact (List.suffix_cons _ _).trans (List.suffix_append _ _)

theorem enforce_limit_prompt_only (history prompt : Str) (limit : Int)
    (h : 4 * limit ≤ (prompt.length : Int)) :
    enforce_limit history prompt limit = prompt := by
  unfold enforce_limit
  dsimp only
  split
  · rename_i hle
    have hH : history.length = 0 := by omega
    rw [List.length_eq_zero.mp hH]
    simp
  · split
    · rfl
    · rename_i hck
      omega

/-- C3: for every graph, node and configured `max_tokens`, `assemble`
returns a string with the fully resolved prompt
(`_inject_references(prompt)`) as an unmodified suffix; and whenever the
resolved prompt's estimated token count (`len/4`, i.e.
`4*max_tokens ≤ len`) alone meets or exceeds the budget, `assemble`
returns exactly the resolved prompt, with no truncation marker and no
history or implicit context prepended. -/
theorem C3_assemble_never_truncates_prompt (g : Graph) (node : Node) :
    (inject_references g node.prompt node <:+ assemble g node) ∧
    (4 * node.config.max_tokens ≤ ((inject_references g node.prompt node).length : Int) →
      assemble g node = inject_references g node.prompt node) :=
  ⟨enforce_limit_suffix _ _ _, fun h => enforce_limit_prompt_only _ _ _ h⟩

/-- Witness graph for C3: no nodes, no links. -/
def gW3 : Graph := { heap := [], present := [], links := [], global_token_limit := 16384 }

/-- Witness node for C3: a 12-character prompt with a 2-token budget. -/
def nW3 : Node :=
  { defNode "n".toList with
    prompt := "012345678901".toList
    config := { model := [], provider := [], max_tokens := 2, trace_depth := 2 } }

/-- Witness for C3: at the concrete over-budget node, the hypothesis of
the second conjunct holds and `assemble` returns exactly the prompt. -/
theorem C3_assemble_never_truncates_prompt_witness :
    (inject_references gW3 nW3.prompt nW3 <:+ assemble gW3 nW3) ∧
    assemble gW3 nW3 = inject_references gW3 nW3.prompt nW3 :=
  ⟨(C3_assemble_never_truncates_prompt gW3 nW3).1,
   (C3_assemble_never_truncates_prompt gW3 nW3).2 (by decide)⟩

/-- Node `P` of the C7 scenario: cached output `"HHHH"`. -/
def pW7 : Node := { defNode "p".toList with cached_output := "HHHH".toList }

/-- Node `C` of the C7 scenario: prompt `"PP"`, one input link from `P`,
`trace_depth = 1`. -/
def nW7 : Node :=
  { defNode "c".toList with
    prompt := "PP".toList
    input_links := ["l".toList]
    config := { model := [], provider := [], max_tokens := 16000, trace_depth := 1 } }

/-- The C7 scenario graph: `P → C`. -/
def gW7 : Graph :=
  { heap := [("p".toList, pW7), ("c".toList, nW7)]
    present := ["p".toList, "c".toList]
    links := [("l".toList, { source_id := "p".toList, target_id := "c".toList, id := "l".toList })]
    global_token_limit := 16384 }

/-- Counterexample to C7 as stated: in the `P → C` graph the history is
`"HHHH"`, the implicit context is empty and the resolved prompt is
`"PP"`, all well within the 16000-token budget, yet `assemble` returns
`"HHHH\nPP"` — context block and prompt are joined by a single newline,
not the claimed `"HHHH\n\nPP"`. -/
theorem C7_counterexample :
    gather_history gW7 nW7 nW7.config.trace_depth = "HHHH".toList ∧
    implicit_context gW7 nW7 = [] ∧
    inject_references gW7 nW7.prompt nW7 = "PP".toList ∧
    ((context_block gW7 nW7).length : Int) +
      ((inject_references gW7 nW7.prompt nW7).length : Int) ≤ 4 * nW7.config.max_tokens ∧
    assemble gW7 nW7 = "HHHH\nPP".toList ∧
    assemble gW7 nW7 ≠ "HHHH\n\nPP".toList := by
  refine ⟨by decide, by decide, by decide, by decide, by decide, by decide⟩

/-- C7 (amended): when the estimated token count of the assembled
context block (history, then — if the implicit context is non-empty — a
blank line and the implicit context) plus that of the resolved prompt is
within `max_tokens`, `assemble` returns the context block followed by a
single newline and the resolved prompt, or just the resolved prompt when
the context block is empty.  (The claim's `"\n\n"` separator before the
prompt and the dropping of an empty history's separator do not hold of
the code: `_enforce_limit` joins with `"\n"`, and `assemble` prepends
`"\n\n" + implicit` to the history even when the history is empty.) -/
theorem C7_amended_within_budget (g : Graph) (node : Node)
    (h : ((context_block g node).length : Int) +
      ((inject_references g node.prompt node).length : Int) ≤ 4 * node.config.max_tokens) :
    assemble g node =
      (if context_block g node = [] then inject_references g node.prompt node
       else context_block g node ++ '\n' :: inject_references g node.prompt node) := by
  unfold assemble enforce_limit
  dsimp only
  rw [if_pos (by omega)]

/-- Witness for the amended C7 at the concrete `P → C` scenario. -/
theorem C7_amended_within_budget_witness :
    (((context_block gW7 nW7).length : Int) +
      ((inject_references gW7 nW7.prompt nW7).length : Int) ≤ 4 * nW7.config.max_tokens) ∧
    assemble gW7 nW7 =
      (if context_block gW7 nW7 = [] then inject_references gW7 nW7.prompt nW7
       else context_block gW7 nW7 ++ '\n' :: inject_references gW7 nW7.prompt nW7) :=
  ⟨by decide, C7_amended_within_budget gW7 nW7 (by decide)⟩

/-! ### `src/core/provider_manager.py` and `src/services/worker.py` -/

/-- `ProviderManager.resolve_effective_provider`.  The ambient
`SettingsManager().value("default_provider", "Ollama")` lookup is the
explicit `default_provider` argument (the claims quantify over it); a
Python `None` provider and the empty string are both falsy under
`config_provider or "Default"`, so the empty string stands for both. -/
def resolve_effective_provider (default_provider config_provider config_model : Str) : Str :=
  let provider := if config_provider = [] then "Default".toList else config_provider
  if provider ≠ "Default".toList then provider
  else if config_model = [] then default_provider
  else if "gpt".toList.isPrefixOf config_model || "o1".toList.isPrefixOf config_model then
    "OpenAI".toList
  else if "gemini".toList.isPrefixOf config_model then "Gemini".toList
  else if "openrouter".toList.isPrefixOf config_model then "OpenRouter".toList
  else "Ollama".toList

/-- The provider backend `LLMWorker._async_run` actually dispatches to
(`_call_openai` ↦ `"OpenAI"` and so on), as a function of the worker's
`config` dict entries `config.get("provider", "Default")` and
`config.get("model", "")`: four explicit provider branches, then the
worker's local copy of the prefix heuristic — which has no
`openrouter` branch and no global-default fallback. -/
def worker_dispatch (provider_opt model_opt : Option Str) : Str :=
  let model := model_opt.getD []
  let provider := provider_opt.getD "Default".toList
  if provider = "OpenAI".toList then "OpenAI".toList
  else if provider = "Gemini".toList then "Gemini".toList
  else if provider = "OpenRouter".toList then "OpenRouter".toList
  else if provider = "Ollama".toList then "Ollama".toList
  else if "gpt".toList.isPrefixOf model || "o1".toList.isPrefixOf model then "OpenAI".toList
  else if "gemini".toList.isPrefixOf model then "Gemini".toList
  else "Ollama".toList

/-- C2 (code bug): the worker's dispatch disagrees with
`ProviderManager.resolve_effective_provider` — the centralised function
the spec requires every caller to use.  At `provider = "Default"`,
`model = "openrouter/auto"` the worker calls the Ollama backend while
the resolver (hence the UI label) says OpenRouter; with no model name,
the worker calls Ollama regardless of the configured global default
provider, which the resolver returns. -/
theorem C2_worker_dispatch_disagrees_with_resolver (default_provider : Str) :
    worker_dispatch (some "Default".toList) (some "openrouter/auto".toList) = "Ollama".toList ∧
    resolve_effective_provider default_provider "Default".toList "openrouter/auto".toList
      = "OpenRouter".toList ∧
    worker_dispatch (some "Default".toList) (some []) = "Ollama".toList ∧
    resolve_effective_provider "OpenAI".toList "Default".toList [] = "OpenAI".toList := by
  refine ⟨by decide, ?_, by decide, by decide⟩
  rfl

/-! ### `src/services/llm_queue_manager.py` (`LLMQueueManager`)

The scheduler's bookkeeping is modelled synchronously: `submit_task`,
`cancel_task` and `shutdown` are the Python methods' effect on the
`queues` / `active_workers` / `worker_map` dicts and on the worker
objects; thread start/join (`worker.start()`, `quit()`, `wait()`) and
Qt signal emissions carry no bookkeeping state and are not modelled.
Worker objects are aliased by `active_workers` and `worker_map`, so, as
with graph nodes, they live in a heap keyed by their (unique)
`node_id`, and the two dicts store the key. -/

/-- The `config` dict a worker receives (only its `provider` and
`model` entries are ever read; `none` = key absent). -/
structure WConfig where
  provider_opt : Option Str
  model_opt : Option Str
deriving DecidableEq

/-- A queue entry `(node_id, prompt, config)`. -/
structure Task where
  node_id : Str
  prompt : Str
  config : WConfig
deriving DecidableEq

/-- An `LLMWorker` object (thread behaviour out of scope). -/
structure WorkerObj where
  node_id : Str
  prompt : Str
  config : WConfig
  is_cancelled : Bool
deriving DecidableEq

/-- `LLMQueueManager` state: `queues` is the `defaultdict(deque)`
(an absent provider key reads as the empty queue), `active_workers`
maps a provider to its single active worker (stored as the heap key),
`worker_map` is the set of node ids with a live worker (its dict value
is the heap object at that key). -/
structure QM where
  queues : List (Str × List Task)
  active_workers : List (Str × Str)
  worker_map : List Str
  worker_heap : List (Str × WorkerObj)
deriving DecidableEq

/-- Read of the `defaultdict` `queues[provider]` without the
entry-creating side effect (used where Python only reads). -/
def QM.qget (qm : QM) (provider : Str) : List Task :=
  (dget qm.queues provider).getD []

/-- `LLMQueueManager.is_node_running_or_queued`. -/
def QM.is_node_running_or_queued (qm : QM) (nid : Str) : Bool :=
  nid ∈ qm.worker_map || qm.queues.any (fun pq => pq.2.any (fun t => t.node_id = nid))

/-- `LLMQueueManager.start_worker`: create the worker object and record
it as the provider's active worker and in `worker_map`. -/
def QM.start_worker (qm : QM) (nid prompt : Str) (config : WConfig) (provider : Str) : QM :=
  let w : WorkerObj := { node_id := nid, prompt := prompt, config := config,
                         is_cancelled := false }
  { qm with active_workers := dinsert qm.active_workers provider nid
            worker_map := if nid ∈ qm.worker_map then qm.worker_map else qm.worker_map ++ [nid]
            worker_heap := dinsert qm.worker_heap nid w }

/-- `LLMQueueManager.submit_task`: reject duplicates, start immediately
when the provider has no active worker, otherwise append to the
provider's FIFO queue. -/
def QM.submit_task (qm : QM) (nid prompt : Str) (config : WConfig) : QM :=
  let provider := config.provider_opt.getD "Default".toList
  if qm.is_node_running_or_queued nid then qm
  else if (dget qm.active_workers provider).isNone then
    qm.start_worker nid prompt config provider
  else
    { qm with queues := dinsert qm.queues provider (qm.qget provider ++ [⟨nid, prompt, config⟩]) }

/-- `LLMQueueManager.process_next_in_queue`: pop the front of the
provider's queue, if any, and start it (the bare `self.queues[provider]`
read creates an empty entry for an absent provider key —
`defaultdict`). -/
def QM.process_next_in_queue (qm : QM) (provider : Str) : QM :=
  match qm.qget provider with
  | [] => { qm with queues := if (dget qm.queues provider).isSome then qm.queues
                              else dinsert qm.queues provider [] }
  | t :: rest =>
    let qm1 : QM := { qm with queues := dinsert qm.queues provider rest }
    qm1.start_worker t.node_id t.prompt t.config provider

/-- Remove the first queue entry with the given node id
(`del queue[found_idx]` at the first matching index). -/
def removeFirstTask (q : List Task) (nid : Str) : List Task :=
  match q with
  | [] => []
  | t :: rest => if t.node_id = nid then rest else t :: removeFirstTask rest nid

/-- `LLMQueueManager.cancel_task`: if the node is some provider's active
worker, set the shared object's `is_cancelled`, drop it from
`active_workers` and `worker_map` (without waiting for the thread), and
start the next queued task for that provider; otherwise remove the
node's entry, if any, from the first queue that contains it. -/
def QM.cancel_task (qm : QM) (nid : Str) : QM :=
  match qm.active_workers.find? (fun pw => pw.2 = nid) with
  | some pw =>
    let heap' := match dget qm.worker_heap pw.2 with
      | some w => dinsert qm.worker_heap pw.2 { w with is_cancelled := true }
      | none => qm.worker_heap
    let qm1 : QM := { qm with worker_heap := heap'
                              active_workers := derase qm.active_workers pw.1
                              worker_map := qm.worker_map.erase nid }
    qm1.process_next_in_queue pw.1
  | none =>
    match qm.queues.find? (fun pq => pq.2.any (fun t => t.node_id = nid)) with
    | some pq => { qm with queues := dinsert qm.queues pq.1 (removeFirstTask pq.2 nid) }
    | none => qm

/-- The body of `shutdown`'s loop: `worker.cancel()` on the worker
referenced by an `active_workers` entry (`quit()`/`wait()` join the
thread and carry no bookkeeping state). -/
def cancelWorker (h : List (Str × WorkerObj)) (pw : Str × Str) : List (Str × WorkerObj) :=
  match dget h pw.2 with
  | some w => dinsert h pw.2 { w with is_cancelled := true }
  | none => h

/-- `LLMQueueManager.shutdown`: clear all pending queues and cancel
every active worker (then join its thread); the `active_workers` and
`worker_map` dicts themselves are left untouched. -/
def QM.shutdown (qm : QM) : QM :=
  { qm with queues := [], worker_heap := qm.active_workers.foldl cancelWorker qm.worker_heap }

/-- A freshly constructed `LLMQueueManager`. -/
def QM.initial : QM := { queues := [], active_workers := [], worker_map := [], worker_heap := [] }

/-- C5: from an idle scheduler, submitting tasks `A` then `B` for the
same provider `P` makes `A` the provider's single active worker with `B`
queued behind it; cancelling `A` removes `B` from the queue and makes it
the provider's single active worker (its fresh worker not cancelled). -/
theorem C5_same_provider_fifo (A B pa pb P : Str) (ca cb : WConfig)
    (hca : ca.provider_opt.getD "Default".toList = P)
    (hcb : cb.provider_opt.getD "Default".toList = P)
    (hAB : A ≠ B) :
    ((QM.initial.submit_task A pa ca).active_workers = [(P, A)]) ∧
    (((QM.initial.submit_task A pa ca).submit_task B pb cb).active_workers = [(P, A)]) ∧
    (((QM.initial.submit_task A pa ca).submit_task B pb cb).qget P
      = [{ node_id := B, prompt := pb, config := cb }]) ∧
    ((((QM.initial.submit_task A pa ca).submit_task B pb cb).cancel_task A).active_workers
      = [(P, B)]) ∧
    ((((QM.initial.submit_task A pa ca).submit_task B pb cb).cancel_task A).qget P = []) ∧
    (dget ((((QM.initial.submit_task A pa ca).submit_task B pb cb).cancel_task A).worker_heap) B
      = some { node_id := B, prompt := pb, config := cb, is_cancelled := false }) := by
  simp at hca hcb
  have h1 : QM.initial.submit_task A pa ca
      = { queues := [], active_workers := [(P, A)], worker_map := [A],
          worker_heap := [(A, { node_id := A, prompt := pa, config := ca,
                                is_cancelled := false })] } := by
    simp [QM.submit_task, QM.initial, QM.is_node_running_or_queued, QM.start_worker, hca,
      dget, dinsert]
  have h2 : (QM.initial.submit_task A pa ca).submit_task B pb cb
      = { queues := [(P, [{ node_id := B, prompt := pb, config := cb }])],
          active_workers := [(P, A)], worker_map := [A],
          worker_heap := [(A, { node_id := A, prompt := pa, config := ca,
                                is_cancelled := false })] } := by
    rw [h1]
    simp [QM.submit_task, QM.is_node_running_or_queued, QM.qget, hcb, Ne.symm hAB,
      dget, dinsert]
  have h3 : ((QM.initial.submit_task A pa ca).submit_task B pb cb).cancel_task A
      = { queues := [(P, [])], active_workers := [(P, B)], worker_map := [B],
          worker_heap := [(A, { node_id := A, prompt := pa, config := ca,
                                is_cancelled := true }),
                          (B, { node_id := B, prompt := pb, config := cb,
                                is_cancelled := false })] } := by
    rw [h2]
    simp [QM.cancel_task, QM.process_next_in_queue, QM.start_worker, QM.qget,
      List.find?, dget, dinsert, derase, hAB, Ne.symm hAB]
  refine ⟨by rw [h1], by rw [h2], by rw [h2]; simp [QM.qget, dget], by rw [h3],
    by rw [h3]; simp [QM.qget, dget], by rw [h3]; simp [dget, hAB]⟩

/-- Concrete config for the C5 witness. -/
def cfgW5 : WConfig := { provider_opt := some "Ollama".toList, model_opt := none }

/-- Witness for C5 at the concrete scenario of spec §8: provider
`Ollama`, nodes `A` and `B` submitted in that order, then `A`
cancelled. -/
theorem C5_same_provider_fifo_witness :
    ((QM.initial.submit_task "A".toList "pa".toList cfgW5).active_workers
      = [("Ollama".toList, "A".toList)]) ∧
    (((QM.initial.submit_task "A".toList "pa".toList cfgW5).submit_task
        "B".toList "pb".toList cfgW5).active_workers = [("Ollama".toList, "A".toList)]) ∧
    (((QM.initial.submit_task "A".toList "pa".toList cfgW5).submit_task
        "B".toList "pb".toList cfgW5).qget "Ollama".toList
      = [{ node_id := "B".toList, prompt := "pb".toList, config := cfgW5 }]) ∧
    ((((QM.initial.submit_task "A".toList "pa".toList cfgW5).submit_task
        "B".toList "pb".toList cfgW5).cancel_task "A".toList).active_workers
      = [("Ollama".toList, "B".toList)]) ∧
    ((((QM.initial.submit_task "A".toList "pa".toList cfgW5).submit_task
        "B".toList "pb".toList cfgW5).cancel_task "A".toList).qget "Ollama".toList = []) ∧
    (dget ((((QM.initial.submit_task "A".toList "pa".toList cfgW5).submit_task
        "B".toList "pb".toList cfgW5).cancel_task "A".toList).worker_heap) "B".toList
      = some { node_id := "B".toList, prompt := "pb".toList, config := cfgW5,
               is_cancelled := false }) :=
  C5_same_provider_fifo "A".toList "B".toList "pa".toList "pb".toList "Ollama".toList
    cfgW5 cfgW5 (by decide) (by decide) (by decide)

/-- The scheduler state of the C8 counterexample: one task submitted to
an idle scheduler, hence one active worker and empty queues. -/
def qmW8 : QM := QM.initial.submit_task "A".toList "p".toList cfgW5

/-- Counterexample to C8 as stated: after `shutdown()` the pending
queues are empty, but the `active_workers` bookkeeping still records the
(cancelled) worker — `shutdown` never clears `active_workers` (nor
`worker_map`), so the bookkeeping does not record zero active
workers. -/
theorem C8_counterexample :
    (qmW8.shutdown).queues = [] ∧
    (qmW8.shutdown).active_workers = [("Ollama".toList, "A".toList)] ∧
    (qmW8.shutdown).active_workers ≠ [] ∧
    (qmW8.shutdown).worker_map = ["A".toList] := by
  refine ⟨by decide, by decide, by decide, by decide⟩

theorem cancelWorker_cancels (h : List (Str × WorkerObj)) (q : Str × Str) :
    ∀ w, dget (cancelWorker h q) q.2 = some w → w.is_cancelled = true := by
  intro w' hw'
  unfold cancelWorker at hw'
  cases hq : dget h q.2 with
  | none =>
    rw [hq] at hw'
    rw [hq] at hw'
    exact Option.noConfusion hw'
  | some wq =>
    rw [hq] at hw'
    rw [dget_dinsert_self] at hw'
    cases hw'
    rfl

theorem cancelWorker_keeps (h : List (Str × WorkerObj)) (q : Str × Str) (k : Str)
    (hk : ∀ w, dget h k = some w → w.is_cancelled = true) :
    ∀ w, dget (cancelWorker h q) k = some w → w.is_cancelled = true := by
  intro w' hw'
  unfold cancelWorker at hw'
  cases hq : dget h q.2 with
  | none =>
    rw [hq] at hw'
    exact hk w' hw'
  | some wq =>
    rw [hq] at hw'
    by_cases hkq : k = q.2
    · subst hkq
      rw [dget_dinsert_self] at hw'
      cases hw'
      rfl
    · rw [dget_dinsert_ne _ _ _ _ hkq] at hw'
      exact hk w' hw'

theorem foldl_cancelWorker_cancels (l : List (Str × Str)) :
    ∀ (h0 : List (Str × WorkerObj)) (pw : Str × Str),
      (pw ∈ l ∨ (∀ w, dget h0 pw.2 = some w → w.is_cancelled = true)) →
      ∀ w, dget (l.foldl cancelWorker h0) pw.2 = some w → w.is_cancelled = true := by
  induction l with
  | nil =>
    intro h0 pw hpw w hw
    rcases hpw with hpw | hpw
    · exact absurd hpw (List.not_mem_nil pw)
    · exact hpw w hw
  | cons q rest ih =>
    intro h0 pw hpw w hw
    rcases hpw with hpw | hpw
    · rcases List.mem_cons.mp hpw with hpw | hpw
      · subst hpw
        exact ih _ pw (Or.inr (cancelWorker_cancels h0 pw)) w hw
      · exact ih _ pw (Or.inl hpw) w hw
    · exact ih _ pw (Or.inr (cancelWorker_keeps h0 q pw.2 hpw)) w hw

/-- C8 (amended): for every scheduler state, `shutdown()` empties all
pending queues and marks every active worker cancelled, but leaves the
`active_workers` and `worker_map` bookkeeping entries in place. -/
theorem C8_amended_shutdown (qm : QM) :
    (qm.shutdown).queues = [] ∧
    (qm.shutdown).active_workers = qm.active_workers ∧
    (qm.shutdown).worker_map = qm.worker_map ∧
    (∀ pw ∈ (qm.shutdown).active_workers, ∀ w,
      dget (qm.shutdown).worker_heap pw.2 = some w → w.is_cancelled = true) := by
  refine ⟨rfl, rfl, rfl, ?_⟩
  intro pw hpw w hw
  exact foldl_cancelWorker_cancels qm.active_workers qm.worker_heap pw (Or.inl hpw) w hw

/-! ### Claim C4: `Graph.mark_dirty` -/

/-- The dirty flag of the node at `id` (`false` for an absent node). -/
def Graph.nodeDirty (g : Graph) (id : Str) : Bool :=
  match g.getNode id with
  | some n => n.is_dirty
  | none => false

/-- What a `mark_dirty` run can do to the state: links and the node-dict
key list are untouched, and each heap entry is either untouched or has
only its `is_dirty` flag raised. -/
def markPreserves (g g' : Graph) : Prop :=
  g'.links = g.links ∧ g'.present = g.present ∧
  ∀ id, dget g'.heap id = dget g.heap id ∨
    ∃ n, dget g.heap id = some n ∧ dget g'.heap id = some { n with is_dirty := true }

theorem markPreserves_refl (g : Graph) : markPreserves g g :=
  ⟨rfl, rfl, fun _ => Or.inl rfl⟩

theorem markPreserves_trans {a b c : Graph}
    (hab : markPreserves a b) (hbc : markPreserves b c) : markPreserves a c := by
  obtain ⟨l1, p1, h1⟩ := hab
  obtain ⟨l2, p2, h2⟩ := hbc
  refine ⟨l2.trans l1, p2.trans p1, fun id => ?_⟩
  rcases h2 id with h2' | ⟨n, hbn, hcn⟩
  · rcases h1 id with h1' | ⟨m, han, hbn⟩
    · exact Or.inl (h2'.trans h1')
    · exact Or.inr ⟨m, han, h2'.trans hbn⟩
  · rcases h1 id with h1' | ⟨m, ham, hbm⟩
    · exact Or.inr ⟨n, h1' ▸ hbn, hcn⟩
    · refine Or.inr ⟨m, ham, ?_⟩
      rw [hbm] at hbn
      cases hbn
      exact hcn
  
theorem foldl_markPreserves {α : Type} (step : Graph → α → Graph)
    (hstep : ∀ g x, markPreserves g (step g x)) :
    ∀ (l : List α) (g : Graph), markPreserves g (l.foldl step g) := by
  intro l
  induction l with
  | nil => exact markPreserves_refl
  | cons x rest ih =>
    intro g
    exact markPreserves_trans (hstep g x) (ih (step g x))

theorem markDirtyAux_preserves : ∀ (f : Nat) (g : Graph) (n : Str),
    markPreserves g (Graph.markDirtyAux f g n) := by
  intro f
  induction f with
  | zero => intro g n; exact markPreserves_refl g
  | succ f ih =>
    intro g n
    unfold Graph.markDirtyAux
    by_cases hmem : n ∈ g.present
    · rw [if_pos hmem]
      cases hg : dget g.heap n with
      | none => exact markPreserves_refl g
      | some node =>
        dsimp only
        by_cases hnd : node.is_dirty = true
        · rw [if_pos hnd]
          exact markPreserves_refl g
        · rw [if_neg hnd]
          refine markPreserves_trans (b := { g with
              heap := dinsert g.heap n { node with is_dirty := true } }) ?_ ?_
          · refine ⟨rfl, rfl, fun id => ?_⟩
            by_cases hid : id = n
            · subst hid
              exact Or.inr ⟨node, hg, by simp⟩
            · exact Or.inl (dget_dinsert_ne _ _ _ _ hid)
          · exact foldl_markPreserves _ (fun g' c => ih g' c) _ _
    · rw [if_neg hmem]
      exact markPreserves_refl g

theorem markPreserves_nodeDirty_mono {g g' : Graph} (h : markPreserves g g')
    {a : Str} (ha : g.nodeDirty a = true) : g'.nodeDirty a = true := by
  obtain ⟨_, hp, hh⟩ := h
  unfold Graph.nodeDirty Graph.getNode at ha ⊢
  rw [hp]
  by_cases hmem : a ∈ g.present
  · simp only [hmem, if_pos] at ha ⊢
    rcases hh a with h' | ⟨n, hn, hn'⟩
    · rw [h']
      exact ha
    · rw [hn']
  · simp [hmem] at ha
  
theorem markPreserves_nodeDirty_of_false {g g' : Graph} (h : markPreserves g g')
    {a : Str} (ha : g'.nodeDirty a = false) : g.nodeDirty a = false := by
  cases hd : g.nodeDirty a with
  | false => rfl
  | true => rw [markPreserves_nodeDirty_mono h hd] at ha; cases ha

theorem markPreserves_isSome {g g' : Graph} (h : markPreserves g g') (id : Str) :
    (dget g'.heap id).isSome = (dget g.heap id).isSome := by
  rcases h.2.2 id with h' | ⟨n, hn, hn'⟩
  · rw [h']
  · rw [hn, hn']
    rfl

theorem markPreserves_childTargets {g g' : Graph} (h : markPreserves g g') (a : Str) :
    g'.childTargets a = g.childTargets a := by
  unfold Graph.childTargets
  rw [h.1]

theorem length_filter_mono {α : Type} (p q : α → Bool) (l : List α)
    (h : ∀ a ∈ l, p a = true → q a = true) :
    (l.filter p).length ≤ (l.filter q).length := by
  induction l with
  | nil => simp
  | cons x rest ih =>
    have hrest := ih (fun a ha => h a (List.mem_cons_of_mem _ ha))
    by_cases hp : p x = true
    · have hq := h x (List.mem_cons_self _ _) hp
      simp only [List.filter, hp, hq]
      exact Nat.succ_le_succ hrest
    · by_cases hq : q x = true
      · simp only [List.filter, hp, hq, Bool.false_eq_true, if_false]
        simp only [List.length_cons]
        omega
      · simp only [List.filter, hp, hq]
        exact hrest

theorem markPreserves_cleanCount_le {g g' : Graph} (h : markPreserves g g') :
    g'.cleanCount ≤ g.cleanCount := by
  unfold Graph.cleanCount
  rw [h.2.1]
  apply length_filter_mono
  intro id _ hid
  rcases h.2.2 id with h' | ⟨n, hn, hn'⟩
  · rw [h'] at hid
    exact hid
  · rw [hn'] at hid
    exact absurd hid (by simp)

theorem markDirtyAux_dirty_after (f : Nat) (g : Graph) (n : Str) (node : Node)
    (hmem : n ∈ g.present) (hg : dget g.heap n = some node) :
    (Graph.markDirtyAux (f+1) g n).nodeDirty n = true := by
  unfold Graph.markDirtyAux
  rw [if_pos hmem, hg]
  dsimp only
  by_cases hnd : node.is_dirty = true
  · rw [if_pos hnd]
    unfold Graph.nodeDirty Graph.getNode
    rw [if_pos hmem, hg]
    exact hnd
  · rw [if_neg hnd]
    apply markPreserves_nodeDirty_mono
      (foldl_markPreserves _ (fun h c => markDirtyAux_preserves f h c) _ _)
    unfold Graph.nodeDirty Graph.getNode
    dsimp only
    rw [if_pos hmem, dget_dinsert_self]

theorem mark_dirty_dirty_after (g : Graph) (n : Str) (node : Node)
    (hmem : n ∈ g.present) (hg : dget g.heap n = some node) :
    (g.mark_dirty n).nodeDirty n = true :=
  markDirtyAux_dirty_after _ g n node hmem hg

theorem mark_dirty_id_of_absent (g : Graph) (n : Str) (h : n ∉ g.present) :
    g.mark_dirty n = g := by
  unfold Graph.mark_dirty Graph.markDirtyAux
  rw [if_neg h]

theorem mark_dirty_id_of_dirty (g : Graph) (n : Str) (h : g.nodeDirty n = true) :
    g.mark_dirty n = g := by
  unfold Graph.nodeDirty Graph.getNode at h
  by_cases hmem : n ∈ g.present
  · rw [if_pos hmem] at h
    cases hg : dget g.heap n with
    | none => rw [hg] at h; cases h
    | some node =>
      rw [hg] at h
      unfold Graph.mark_dirty Graph.markDirtyAux
      rw [if_pos hmem, hg]
      dsimp only
      rw [if_pos h]
  · rw [if_neg hmem] at h
    cases h

theorem mark_dirty_idem (g : Graph) (n : Str) :
    (g.mark_dirty n).mark_dirty n = g.mark_dirty n := by
  by_cases hmem : n ∈ g.present
  · cases hg : dget g.heap n with
    | none =>
      have h1 : g.mark_dirty n = g := by
        unfold Graph.mark_dirty Graph.markDirtyAux
        rw [if_pos hmem, hg]
      rw [h1]
      exact h1
    | some node =>
      exact mark_dirty_id_of_dirty _ _ (mark_dirty_dirty_after g n node hmem hg)
  · have h1 : g.mark_dirty n = g := mark_dirty_id_of_absent g n hmem
    rw [h1]
    exact h1

theorem length_filter_lt {α : Type} (p q : α → Bool) (l : List α)
    (h : ∀ a ∈ l, p a = true → q a = true) (x : α) (hx : x ∈ l)
    (hqx : q x = true) (hpx : p x = false) :
    (l.filter p).length < (l.filter q).length := by
  induction l with
  | nil => cases hx
  | cons y rest ih =>
    have hmono := length_filter_mono p q rest (fun a ha => h a (List.mem_cons_of_mem _ ha))
    rcases List.mem_cons.mp hx with rfl | hx'
    · simp only [List.filter, hpx, hqx, List.length_cons]
      omega
    · by_cases hpy : p y = true
      · have hqy := h y (List.mem_cons_self _ _) hpy
        simp only [List.filter, hpy, hqy, List.length_cons]
        exact Nat.succ_lt_succ (ih (fun a ha => h a (List.mem_cons_of_mem _ ha)) hx')
      · have hlt := ih (fun a ha => h a (List.mem_cons_of_mem _ ha)) hx'
        by_cases hqy : q y = true
        · simp only [List.filter, hpy, hqy, Bool.false_eq_true, if_false, List.length_cons]
          omega
        · simp only [List.filter, hpy, hqy]
          exact hlt

theorem cleanCount_mark_lt (g : Graph) (n : Str) (node : Node)
    (hmem : n ∈ g.present) (hg : dget g.heap n = some node) (hnd : node.is_dirty = false) :
    ({ g with heap := dinsert g.heap n { node with is_dirty := true } } : Graph).cleanCount
      < g.cleanCount := by
  unfold Graph.cleanCount
  dsimp only
  apply length_filter_lt _ _ _ _ n hmem
  · rw [hg]
    simp [hnd]
  · rw [dget_dinsert_self]
    rfl
  · intro a _ ha
    by_cases han : a = n
    · subst han
      rw [dget_dinsert_self] at ha
      cases ha
    · rw [dget_dinsert_ne _ _ _ _ han] at ha
      exact ha

theorem markDirtyAux_stab (f : Nat) : ∀ (g : Graph) (n : Str), g.cleanCount + 1 ≤ f →
    Graph.markDirtyAux (f+1) g n = Graph.markDirtyAux f g n := by
  induction f using Nat.strong_induction_on with
  | _ f ihf =>
    intro g n hf
    cases f with
    | zero => omega
    | succ f₂ =>
      rw [Graph.markDirtyAux, Graph.markDirtyAux]
      by_cases hmem : n ∈ g.present
      · rw [if_pos hmem, if_pos hmem]
        cases hg : dget g.heap n with
        | none => rfl
        | some node =>
          dsimp only
          by_cases hnd : node.is_dirty = true
          · rw [if_pos hnd, if_pos hnd]
          · rw [if_neg hnd, if_neg hnd]
            have hcc : ({ g with heap := dinsert g.heap n { node with is_dirty := true } }
                : Graph).cleanCount < g.cleanCount :=
              cleanCount_mark_lt g n node hmem hg (Bool.not_eq_true _ ▸ hnd)
            have hfold : ∀ (cs : List Str) (h : Graph), h.cleanCount + 1 ≤ f₂ →
                cs.foldl (fun h c => Graph.markDirtyAux (f₂+1) h c) h
                  = cs.foldl (fun h c => Graph.markDirtyAux f₂ h c) h := by
              intro cs
              induction cs with
              | nil => intro h _; rfl
              | cons c rest ihc =>
                intro h hh
                simp only [List.foldl]
                rw [ihf f₂ (Nat.lt_succ_self f₂) h c hh]
                apply ihc
                have := markPreserves_cleanCount_le (markDirtyAux_preserves f₂ h c)
                omega
            exact hfold _ _ (by omega)
      · rw [if_neg hmem, if_neg hmem]

theorem markDirtyAux_ge_fuel (g : Graph) (n : Str) :
    ∀ k, Graph.markDirtyAux (g.cleanCount + 1 + k) g n = g.mark_dirty n := by
  intro k
  induction k with
  | zero => rfl
  | succ k ih => exact (markDirtyAux_stab (g.cleanCount + 1 + k) g n (by omega)).trans ih

/-- Fuel irrelevance: any fuel at least `cleanCount + 1` computes the
same result — the termination content of the Python recursion (its call
depth is bounded by the number of clean nodes plus one). -/
theorem mark_dirty_fuel_irrelevance (g : Graph) (n : Str) (f : Nat)
    (hf : g.cleanCount + 1 ≤ f) : Graph.markDirtyAux f g n = g.mark_dirty n := by
  obtain ⟨k, rfl⟩ : ∃ k, f = g.cleanCount + 1 + k := ⟨f - (g.cleanCount + 1), by omega⟩
  exact markDirtyAux_ge_fuel g n k

theorem markPreserves_heapTotal {g g' : Graph} (h : markPreserves g g')
    (ht : ∀ id ∈ g.present, (dget g.heap id).isSome = true) :
    ∀ id ∈ g'.present, (dget g'.heap id).isSome = true := by
  intro id hid
  rw [markPreserves_isSome h]
  exact ht id (h.2.1 ▸ hid)

theorem markDirtyAux_dirty_after' (f : Nat) (hf : 1 ≤ f) (g : Graph) (n : Str) (node : Node)
    (hmem : n ∈ g.present) (hg : dget g.heap n = some node) :
    (Graph.markDirtyAux f g n).nodeDirty n = true := by
  cases f with
  | zero => omega
  | succ f₂ => exact markDirtyAux_dirty_after f₂ g n node hmem hg

theorem nodeDirty_heap_update_ne (g : Graph) (n a : Str) (v : Node) (han : a ≠ n) :
    ({ g with heap := dinsert g.heap n v } : Graph).nodeDirty a = g.nodeDirty a := by
  unfold Graph.nodeDirty Graph.getNode
  dsimp only
  rw [dget_dinsert_ne _ _ _ _ han]

theorem foldl_markDirtyAux_dirty (f : Nat) (hf : 1 ≤ f) :
    ∀ (cs : List Str) (h : Graph) (c : Str), c ∈ cs → c ∈ h.present →
      (dget h.heap c).isSome = true →
      (cs.foldl (fun x c => Graph.markDirtyAux f x c) h).nodeDirty c = true := by
  intro cs
  induction cs with
  | nil => intro h c hc; cases hc
  | cons d rest ih =>
    intro h c hc hcp hcs
    simp only [List.foldl]
    rcases List.mem_cons.mp hc with rfl | hc'
    · obtain ⟨node, hnode⟩ := Option.isSome_iff_exists.mp hcs
      apply markPreserves_nodeDirty_mono
        (foldl_markPreserves _ (fun x y => markDirtyAux_preserves f x y) rest _)
      exact markDirtyAux_dirty_after' f hf h c node hcp hnode
    · have hpres := markDirtyAux_preserves f h d
      refine ih (Graph.markDirtyAux f h d) c hc' ?_ ?_
      · rw [hpres.2.1]
        exact hcp
      · rw [markPreserves_isSome hpres]
        exact hcs

theorem foldl_markDirtyAux_dce (f : Nat)
    (hdce : ∀ (g : Graph) (n : Str), g.cleanCount + 1 ≤ f →
      (∀ id ∈ g.present, (dget g.heap id).isSome = true) →
      ∀ a, g.nodeDirty a = false → (Graph.markDirtyAux f g n).nodeDirty a = true →
      ∀ b ∈ g.childTargets a, b ∈ g.present → (Graph.markDirtyAux f g n).nodeDirty b = true) :
    ∀ (cs : List Str) (h : Graph), h.cleanCount + 1 ≤ f →
      (∀ id ∈ h.present, (dget h.heap id).isSome = true) →
      ∀ a, h.nodeDirty a = false →
      (cs.foldl (fun x c => Graph.markDirtyAux f x c) h).nodeDirty a = true →
      ∀ b ∈ h.childTargets a, b ∈ h.present →
        (cs.foldl (fun x c => Graph.markDirtyAux f x c) h).nodeDirty b = true := by
  intro cs
  induction cs with
  | nil =>
    intro h _ _ a ha har
    rw [List.foldl_nil] at har
    rw [ha] at har
    cases har
  | cons c rest ih =>
    intro h hcc ht a ha har b hb hbp
    simp only [List.foldl] at har ⊢
    have hpres := markDirtyAux_preserves f h c
    have hcc1 : (Graph.markDirtyAux f h c).cleanCount + 1 ≤ f := by
      have := markPreserves_cleanCount_le hpres
      omega
    have ht1 := markPreserves_heapTotal hpres ht
    cases hd1 : (Graph.markDirtyAux f h c).nodeDirty a with
    | true =>
      have hstep := hdce h c hcc ht a ha hd1 b hb hbp
      exact markPreserves_nodeDirty_mono
        (foldl_markPreserves _ (fun x y => markDirtyAux_preserves f x y) rest _) hstep
    | false =>
      refine ih (Graph.markDirtyAux f h c) hcc1 ht1 a hd1 har b ?_ ?_
      · rw [markPreserves_childTargets hpres]
        exact hb
      · rw [hpres.2.1]
        exact hbp

theorem markDirtyAux_dce (f : Nat) : ∀ (g : Graph) (n : Str), g.cleanCount + 1 ≤ f →
    (∀ id ∈ g.present, (dget g.heap id).isSome = true) →
    ∀ a, g.nodeDirty a = false → (Graph.markDirtyAux f g n).nodeDirty a = true →
    ∀ b ∈ g.childTargets a, b ∈ g.present →
      (Graph.markDirtyAux f g n).nodeDirty b = true := by
  induction f using Nat.strong_induction_on with
  | _ f ihf =>
    intro g n hf ht a ha har b hb hbp
    cases f with
    | zero => omega
    | succ f₂ =>
      rw [Graph.markDirtyAux] at har ⊢
      by_cases hmem : n ∈ g.present
      · rw [if_pos hmem] at har ⊢
        cases hg : dget g.heap n with
        | none =>
          rw [hg] at har
          dsimp only at har
          rw [ha] at har
          cases har
        | some node =>
          rw [hg] at har
          dsimp only at har ⊢
          by_cases hnd : node.is_dirty = true
          · rw [if_pos hnd] at har
            rw [ha] at har
            cases har
          · rw [if_neg hnd] at har ⊢
            have hcc' : ({ g with heap := dinsert g.heap n { node with is_dirty := true } }
                : Graph).cleanCount + 1 ≤ f₂ := by
              have := cleanCount_mark_lt g n node hmem hg (Bool.not_eq_true _ ▸ hnd)
              omega
            have hf₂ : 1 ≤ f₂ := by omega
            have ht' : ∀ id ∈ ({ g with
                heap := dinsert g.heap n { node with is_dirty := true } } : Graph).present,
                (dget ({ g with heap := dinsert g.heap n { node with is_dirty := true } }
                  : Graph).heap id).isSome = true := by
              intro id hid
              dsimp only at hid ⊢
              by_cases hidn : id = n
              · subst hidn
                rw [dget_dinsert_self]
                rfl
              · rw [dget_dinsert_ne _ _ _ _ hidn]
                exact ht id hid
            by_cases han : a = n
            · subst han
              refine foldl_markDirtyAux_dirty f₂ hf₂ _ _ b ?_ hbp (ht' b hbp)
              show b ∈ Graph.childTargets _ a
              have : ({ g with heap := dinsert g.heap a { node with is_dirty := true } }
                  : Graph).childTargets a = g.childTargets a := rfl
              rw [this]
              exact hb
            · have ha' : ({ g with heap := dinsert g.heap n { node with is_dirty := true } }
                  : Graph).nodeDirty a = false := by
                rw [nodeDirty_heap_update_ne g n a _ han]
                exact ha
              refine foldl_markDirtyAux_dce f₂ (ihf f₂ (Nat.lt_succ_self f₂)) _ _
                hcc' ht' a ha' har b ?_ hbp
              show b ∈ Graph.childTargets _ a
              have : ({ g with heap := dinsert g.heap n { node with is_dirty := true } }
                  : Graph).childTargets a = g.childTargets a := rfl
              rw [this]
              exact hb
      · rw [if_neg hmem] at har
        rw [ha] at har
        cases har

theorem childTargets_spec (g : Graph) (a b : Str) (h : b ∈ g.childTargets a) :
    ∃ p, p ∈ g.links ∧ p.2.source_id = a ∧ p.2.target_id = b := by
  unfold Graph.childTargets at h
  obtain ⟨p, hp, rfl⟩ := List.mem_map.mp h
  have hf := List.mem_filter.mp hp
  exact ⟨p, hf.1, by simpa using hf.2, rfl⟩

theorem mark_dirty_closed (g : Graph) (n : Str)
    (hheap : ∀ id ∈ g.present, (dget g.heap id).isSome = true)
    (hclosed : ∀ a ∈ g.present, g.nodeDirty a = true →
      ∀ b ∈ g.childTargets a, b ∈ g.present → g.nodeDirty b = true) :
    ∀ a ∈ (g.mark_dirty n).present, (g.mark_dirty n).nodeDirty a = true →
      ∀ b ∈ (g.mark_dirty n).childTargets a, b ∈ (g.mark_dirty n).present →
      (g.mark_dirty n).nodeDirty b = true := by
  have hpres : markPreserves g (g.mark_dirty n) := markDirtyAux_preserves _ g n
  intro a hap had b hb hbp
  rw [hpres.2.1] at hap hbp
  rw [markPreserves_childTargets hpres] at hb
  cases hga : g.nodeDirty a with
  | true => exact markPreserves_nodeDirty_mono hpres (hclosed a hap hga b hb hbp)
  | false => exact markDirtyAux_dce (g.cleanCount + 1) g n (Nat.le_refl _) hheap a hga had b hb hbp

/-- C4 (amended): on a graph whose links all join present nodes (the
documented graph invariant), whose present nodes have heap objects, and
whose dirty set is already closed under outgoing links (which
`mark_dirty` itself maintains — the claim fails without this, see the
counterexample), `mark_dirty(N)` for a present `N`: (i) terminates — the
fuelled recursion stabilises at any fuel past the clean-node count;
(ii) makes `N` dirty; (iii) makes every node reachable from `N` along
outgoing links dirty; and (iv) a repeated call is the identity on the
result, changing no node's dirty flag. -/
theorem C4_amended_mark_dirty (g : Graph) (N : Str)
    (hWF : ∀ p ∈ g.links, p.2.source_id ∈ g.present ∧ p.2.target_id ∈ g.present)
    (hheap : ∀ id ∈ g.present, (dget g.heap id).isSome = true)
    (hclosed : ∀ a ∈ g.present, g.nodeDirty a = true →
      ∀ b ∈ g.childTargets a, b ∈ g.present → g.nodeDirty b = true)
    (hN : N ∈ g.present) :
    (∀ f, g.cleanCount + 1 ≤ f → Graph.markDirtyAux f g N = g.mark_dirty N) ∧
    ((g.mark_dirty N).nodeDirty N = true) ∧
    (∀ m, Relation.ReflTransGen (fun x y => y ∈ g.childTargets x) N m →
      (g.mark_dirty N).nodeDirty m = true) ∧
    ((g.mark_dirty N).mark_dirty N = g.mark_dirty N) := by
  have hpres : markPreserves g (g.mark_dirty N) := markDirtyAux_preserves _ g N
  obtain ⟨node, hnode⟩ := Option.isSome_iff_exists.mp (hheap N hN)
  have hdirtyN : (g.mark_dirty N).nodeDirty N = true := mark_dirty_dirty_after g N node hN hnode
  refine ⟨mark_dirty_fuel_irrelevance g N, hdirtyN, ?_, mark_dirty_idem g N⟩
  intro m hreach
  induction hreach with
  | refl => exact hdirtyN
  | tail hxc hstep ih =>
    rename_i c m'
    obtain ⟨p, hpl, hsrc, htgt⟩ := childTargets_spec g c m' hstep
    have hcpres : c ∈ g.present := hsrc ▸ (hWF p hpl).1
    have hmpres : m' ∈ g.present := htgt ▸ (hWF p hpl).2
    refine mark_dirty_closed g N hheap hclosed c ?_ ih m' ?_ ?_
    · rw [hpres.2.1]
      exact hcpres
    · rw [markPreserves_childTargets hpres]
      exact hstep
    · rw [hpres.2.1]
      exact hmpres

/-- A node with the given id and dirty flag (all other fields default). -/
def nodeW4 (i : Str) (d : Bool) : Node := { defNode i with is_dirty := d }

/-- The C4 counterexample graph: `p → a → b` with `a` already dirty and
`p`, `b` clean. -/
def gW4 : Graph :=
  { heap := [("p".toList, nodeW4 "p".toList false), ("a".toList, nodeW4 "a".toList true),
             ("b".toList, nodeW4 "b".toList false)]
    present := ["p".toList, "a".toList, "b".toList]
    links := [("l1".toList, { source_id := "p".toList, target_id := "a".toList, id := "l1".toList }),
              ("l2".toList, { source_id := "a".toList, target_id := "b".toList, id := "l2".toList })]
    global_token_limit := 16384 }

/-- Counterexample to C4 as stated: in `p → a → b` with `a` already
dirty, `mark_dirty(p)` stops its recursion at the already-dirty `a`, so
the reachable node `b` stays clean. -/
theorem C4_counterexample :
    "b".toList ∈ gW4.present ∧
    Relation.ReflTransGen (fun x y => y ∈ gW4.childTargets x) "p".toList "b".toList ∧
    (gW4.mark_dirty "p".toList).nodeDirty "p".toList = true ∧
    (gW4.mark_dirty "p".toList).nodeDirty "b".toList = false := by
  refine ⟨by decide, ?_, by decide, by decide⟩
  have h1 : Relation.ReflTransGen (fun x y => y ∈ gW4.childTargets x) "p".toList "a".toList :=
    Relation.ReflTransGen.tail Relation.ReflTransGen.refl (by decide)
  exact Relation.ReflTransGen.tail h1 (by decide)

/-- The all-clean variant of `gW4`, satisfying the amended C4's
hypotheses. -/
def gW4c : Graph :=
  { gW4 with heap := [("p".toList, nodeW4 "p".toList false), ("a".toList, nodeW4 "a".toList false),
                      ("b".toList, nodeW4 "b".toList false)] }

/-- Witness for the amended C4 on the concrete clean chain `p → a → b`. -/
theorem C4_amended_mark_dirty_witness :
    (∀ f, gW4c.cleanCount + 1 ≤ f →
      Graph.markDirtyAux f gW4c "p".toList = gW4c.mark_dirty "p".toList) ∧
    ((gW4c.mark_dirty "p".toList).nodeDirty "p".toList = true) ∧
    (∀ m, Relation.ReflTransGen (fun x y => y ∈ gW4c.childTargets x) "p".toList m →
      (gW4c.mark_dirty "p".toList).nodeDirty m = true) ∧
    ((gW4c.mark_dirty "p".toList).mark_dirty "p".toList = gW4c.mark_dirty "p".toList) :=
  C4_amended_mark_dirty gW4c "p".toList (by decide) (by decide) (by decide) (by decide)

/-! ### Claim C6: serialization (`to_dict`) and `Graph.merge_graph` -/

/-- The `config` block of a serialized node; `none` = key absent
(`conf.get(..., default)` in `Node.from_dict`). -/
structure ConfigData where
  model : Option Str
  provider : Option Str
  max_tokens : Option Int
  trace_depth : Option Int
deriving DecidableEq

/-- A serialized node record, with exactly the keys `Node.to_dict`
writes; each is optional because `Node.from_dict` tolerates missing
keys via defaults. -/
structure NodeData where
  id : Option Str
  pos : Option (Int × Int)
  size : Option (Int × Int)
  text_heights : Option (Int × Int)
  config : Option ConfigData
  prompt : Option Str
  cached_output : Option Str
  is_dirty : Option Bool
  name : Option Str
  inputs : Option (List Str)
deriving DecidableEq

/-- A serialized link record. -/
structure LinkData where
  id : Option Str
  source : Option Str
  target : Option Str
deriving DecidableEq

/-- A serialized graph document (`version` and the `app_settings` block
are carried verbatim; `merge_graph` reads only `nodes` and `links`). -/
structure GraphData where
  version : Str
  global_token_limit : Int
  nodes : List NodeData
  links : List LinkData
deriving DecidableEq

/-- `Node.to_dict`. -/
def Node.to_dict (n : Node) : NodeData :=
  { id := some n.id
    pos := some (n.pos_x, n.pos_y)
    size := some (n.width, n.height)
    text_heights := some (n.prompt_height, n.output_height)
    config := some { model := some n.config.model, provider := some n.config.provider,
                     max_tokens := some n.config.max_tokens,
                     trace_depth := some n.config.trace_depth }
    prompt := some n.prompt
    cached_output := some n.cached_output
    is_dirty := some n.is_dirty
    name := some n.name
    inputs := some n.input_links }

/-- `Node.from_dict`; `fresh` is the `str(uuid.uuid4())` that Python
evaluates eagerly as the default of `data.get("id", ...)` (used only
when the `id` key is absent, but always drawn). -/
def Node.from_dict (fresh : Str) (d : NodeData) : Node :=
  let pos := d.pos.getD (0, 0)
  let size := d.size.getD (300, 450)
  let th := d.text_heights.getD (100, 160)
  let conf := d.config.getD { model := none, provider := none, max_tokens := none,
                              trace_depth := none }
  { id := d.id.getD fresh
    config := { model := conf.model.getD "gpt-4o".toList
                provider := conf.provider.getD "Default".toList
                max_tokens := conf.max_tokens.getD 16000
                trace_depth := conf.trace_depth.getD 2 }
    prompt := d.prompt.getD []
    cached_output := d.cached_output.getD []
    is_dirty := d.is_dirty.getD false
    name := d.name.getD []
    input_links := d.inputs.getD []
    pos_x := pos.1
    pos_y := pos.2
    width := size.1
    height := size.2
    prompt_height := th.1
    output_height := th.2 }

/-- The node objects of `self.nodes.values()`, in dict order. -/
def Graph.nodeValues (g : Graph) : List Node :=
  g.present.filterMap (fun id => dget g.heap id)

/-- `Graph.to_dict`. -/
def Graph.to_dict (g : Graph) : GraphData :=
  { version := "2.0".toList
    global_token_limit := g.global_token_limit
    nodes := g.nodeValues.map Node.to_dict
    links := g.links.map (fun p => { id := some p.2.id, source := some p.2.source_id,
                                     target := some p.2.target_id }) }

/-- `min(...)` of a nonempty Python sequence (the `[]` case is
unreachable: every use is guarded by a nonemptiness check). -/
def listMin : List Int → Int
  | [] => 0
  | x :: xs => xs.foldl min x

/-- `max(...)` of a nonempty Python sequence. -/
def listMax : List Int → Int
  | [] => 0
  | x :: xs => xs.foldl max x

/-- `f"{idx:04d}"`: decimal digits, zero-padded to at least four. -/
def pad4 (n : Nat) : Str :=
  let s := (toString n).toList
  List.replicate (4 - s.length) '0' ++ s

/-- The `while True` search of `merge_graph`'s name-collision handler:
try `prefix_0001`, `prefix_0002`, … until a unique name is found.  The
fuel (one more than the number of nodes) cannot run out: each collision
consumes a distinct existing name. -/
def findFreeName (g : Graph) (pre : Str) : Nat → Nat → Str
  | 0, idx => pre ++ '_' :: pad4 (idx + 1)
  | fuel+1, idx =>
    let test_name := pre ++ '_' :: pad4 (idx + 1)
    if g.is_name_unique test_name none then test_name
    else findFreeName g pre fuel (idx + 1)

/-- The name-collision block of `merge_graph` (step 1): returns the
node with its name resolved against the current graph. -/
def mergeResolveName (g : Graph) (filename : Str) (node : Node) : Node :=
  if node.name ≠ [] ∧ g.is_name_unique node.name none = false then
    let base_name := node.name
    let suggested_name := base_name ++ '_' :: filename
    if 32 < suggested_name.length ∨ g.is_name_unique suggested_name none = false then
      let tail4 := base_name.drop (base_name.length - 4)
      let hasIdx : Bool := decide (5 ≤ base_name.length) &&
        decide ((base_name.drop (base_name.length - 5)).take 1 = ['_']) &&
        tail4.all Char.isDigit
      let pre := if hasIdx then base_name.take (base_name.length - 5) else base_name.take 27
      let idx := if hasIdx then tail4.foldl (fun a c => 10 * a + (c.toNat - '0'.toNat)) 0 else 0
      { node with name := findFreeName g pre (g.present.length + 1) idx }
    else { node with name := suggested_name }
  else node

/-- One iteration of `merge_graph`'s node-processing loop (step 1):
state is `(id_map, new_nodes, uuid supply)`. -/
def mergeNodeStep (g : Graph) (filename : Str) (offs : Int × Int)
    (st : List (Option Str × Str) × List Node × List Str) (nd : NodeData) :
    List (Option Str × Str) × List Node × List Str :=
  let (id_map, new_nodes, sup) := st
  let node := Node.from_dict (sup.headD []) nd
  let sup := sup.tail
  let node := { node with pos_x := node.pos_x + offs.1, pos_y := node.pos_y + offs.2 }
  let (id_map, node, sup) :=
    if node.id ∈ g.present then
      (dinsert id_map nd.id (sup.headD []), { node with id := sup.headD [] }, sup.tail)
    else (dinsert id_map nd.id node.id, node, sup)
  let node := mergeResolveName g filename node
  (id_map, new_nodes ++ [node], sup)

/-- One iteration of `merge_graph`'s link-processing loop (step 3):
state is `(graph, uuid supply)`; `if new_source and new_target` is
Python truthiness (`None` and the empty string are falsy). -/
def mergeLinkStep (id_map : List (Option Str × Str))
    (st : Graph × List Str) (ld : LinkData) : Graph × List Str :=
  let (h, sup) := st
  let new_source := (ld.source.bind (fun k => dget id_map (some k))).getD []
  let new_target := (ld.target.bind (fun k => dget id_map (some k))).getD []
  if new_source ≠ [] ∧ new_target ≠ [] then
    (h.add_link (sup.headD []) new_source new_target false, sup.tail)
  else (h, sup)

/-- The "Calculate Positioning Offset" block of `merge_graph`. -/
def Graph.mergeOffsets (g : Graph) (data : GraphData) : Int × Int :=
  if g.present ≠ [] ∧ data.nodes ≠ [] then
    let current_min_x := listMin (g.nodeValues.map (fun n => n.pos_x))
    let current_max_y := listMax (g.nodeValues.map (fun n => n.pos_y + n.height))
    let incoming_min_x := listMin (data.nodes.map (fun nd => (nd.pos.getD (0,0)).1))
    let incoming_min_y := listMin (data.nodes.map (fun nd => (nd.pos.getD (0,0)).2))
    (current_min_x - incoming_min_x, current_max_y + 50 - incoming_min_y)
  else (0, 0)

/-- Steps 1–3 of `merge_graph` at a given placement offset. -/
def Graph.mergeBody (g : Graph) (data : GraphData) (filename : Str) (supply : List Str)
    (offs : Int × Int) : Graph :=
  let st1 := data.nodes.foldl (mergeNodeStep g filename offs) ([], [], supply)
  let g1 := st1.2.1.foldl (fun h node => h.add_node { node with input_links := [] }) g
  (data.links.foldl (mergeLinkStep st1.1) (g1, st1.2.2)).1

/-- `Graph.merge_graph` (`uuid.uuid4()` draws come from `supply`, in
call order: per node one draw for `from_dict`'s eagerly evaluated
default and, on id collision, one for the remap; then one per created
link). -/
def Graph.merge_graph (g : Graph) (data : GraphData) (filename : Str) (supply : List Str) :
    Graph :=
  g.mergeBody data filename supply (g.mergeOffsets data)

theorem forall2_comp {α β γ : Type} {R : α → β → Prop} {S : β → γ → Prop}
    {T : α → γ → Prop} (h : ∀ a b c, R a b → S b c → T a c) :
    ∀ {as : List α} {bs : List β} {cs : List γ},
      List.Forall₂ R as bs → List.Forall₂ S bs cs → List.Forall₂ T as cs := by
  intro as bs cs hab hbc
  induction hab generalizing cs with
  | nil =>
    cases hbc
    exact List.Forall₂.nil
  | cons hr hrest ih =>
    cases hbc with
    | cons hs hsrest => exact List.Forall₂.cons (h _ _ _ hr hs) (ih hsrest)

theorem forall2_mem_left {α β : Type} {R : α → β → Prop} :
    ∀ {as : List α} {bs : List β}, List.Forall₂ R as bs → ∀ a ∈ as, ∃ b ∈ bs, R a b := by
  intro as bs h
  induction h with
  | nil => intro a ha; cases ha
  | cons hr hrest ih =>
    intro a ha
    rcases List.mem_cons.mp ha with rfl | ha'
    · exact ⟨_, List.mem_cons_self _ _, hr⟩
    · obtain ⟨b, hb, hrb⟩ := ih a ha'
      exact ⟨b, List.mem_cons_of_mem _ hb, hrb⟩

theorem mergeResolveName_shape (g : Graph) (filename : Str) (node : Node) :
    ∃ nm, mergeResolveName g filename node = { node with name := nm } := by
  unfold mergeResolveName
  by_cases h1 : node.name ≠ [] ∧ g.is_name_unique node.name none = false
  · rw [if_pos h1]
    dsimp only
    by_cases h2 : 32 < (node.name ++ '_' :: filename).length ∨
        g.is_name_unique (node.name ++ '_' :: filename) none = false
    · rw [if_pos h2]
      exact ⟨_, rfl⟩
    · rw [if_neg h2]
      exact ⟨_, rfl⟩
  · rw [if_neg h1]
    exact ⟨node.name, rfl⟩

theorem dinsert_length_of_fresh {κ α : Type} [DecidableEq κ] (d : List (κ × α)) (k : κ) (v : α)
    (h : dget d k = none) : (dinsert d k v).length = d.length + 1 := by
  induction d with
  | nil => rfl
  | cons p rest ih =>
    simp only [dget] at h
    by_cases hk : p.1 = k
    · rw [if_pos hk] at h
      cases h
    · rw [if_neg hk] at h
      simp only [dinsert, if_neg hk, List.length_cons, ih h]

theorem nodeValues_forall2 (g : Graph)
    (hheap : ∀ id ∈ g.present, (dget g.heap id).isSome = true) :
    List.Forall₂ (fun id n => dget g.heap id = some n) g.present g.nodeValues := by
  unfold Graph.nodeValues
  have : ∀ (l : List Str), (∀ id ∈ l, (dget g.heap id).isSome = true) →
      List.Forall₂ (fun id n => dget g.heap id = some n) l
        (l.filterMap (fun id => dget g.heap id)) := by
    intro l
    induction l with
    | nil => intro _; exact List.Forall₂.nil
    | cons x rest ih =>
      intro hl
      obtain ⟨n, hn⟩ := Option.isSome_iff_exists.mp (hl x (List.mem_cons_self _ _))
      rw [List.filterMap_cons, hn]
      exact List.Forall₂.cons hn (ih (fun id hid => hl id (List.mem_cons_of_mem _ hid)))
  exact this g.present hheap

/-- Characterisation of `merge_graph`'s node loop (step 1) when every
incoming node id collides with a present id (the self-merge case):
each iteration draws two fresh ids, appends one remapped node, and
records the remap. -/
theorem mergeNodeStep_fold (g : Graph) (filename : Str) (offs : Int × Int) :
    ∀ (nds : List NodeData) (mp0 : List (Option Str × Str)) (ns0 : List Node) (sup : List Str),
    (∀ nd ∈ nds, ∃ oid, nd.id = some oid ∧ oid ∈ g.present) →
    (nds.map NodeData.id).Nodup →
    (∀ nd ∈ nds, dget mp0 nd.id = none) →
    sup.Nodup →
    2 * nds.length ≤ sup.length →
    ∃ extra : List Node,
      (nds.foldl (mergeNodeStep g filename offs) (mp0, ns0, sup)).2.1 = ns0 ++ extra ∧
      (nds.foldl (mergeNodeStep g filename offs) (mp0, ns0, sup)).2.2
        = sup.drop (2 * nds.length) ∧
      (extra.map Node.id).Nodup ∧
      (∀ x ∈ extra.map Node.id, x ∈ sup.take (2 * nds.length)) ∧
      (∀ k, k ∉ nds.map NodeData.id →
        dget (nds.foldl (mergeNodeStep g filename offs) (mp0, ns0, sup)).1 k = dget mp0 k) ∧
      List.Forall₂ (fun nd node =>
        node.is_dirty = nd.is_dirty.getD false ∧
        dget (nds.foldl (mergeNodeStep g filename offs) (mp0, ns0, sup)).1 nd.id
          = some node.id) nds extra := by
  intro nds
  induction nds with
  | nil =>
    intro mp0 ns0 sup _ _ _ _ _
    exact ⟨[], by simp, by simp, by simp, by simp, fun k _ => rfl, List.Forall₂.nil⟩
  | cons nd rest ih =>
    intro mp0 ns0 sup hcoll hknodup hkfresh hsnodup hslen
    obtain ⟨oid, hoid, hoidp⟩ := hcoll nd (List.mem_cons_self _ _)
    obtain ⟨s1, sup1, rfl⟩ : ∃ s1 sup1, sup = s1 :: sup1 := by
      cases sup with
      | nil =>
        exfalso
        simp only [List.length_cons, List.length_nil] at hslen
        omega
      | cons a b => exact ⟨a, b, rfl⟩
    obtain ⟨s2, sup2, rfl⟩ : ∃ s2 sup2, sup1 = s2 :: sup2 := by
      cases sup1 with
      | nil =>
        exfalso
        simp only [List.length_cons, List.length_nil] at hslen
        omega
      | cons a b => exact ⟨a, b, rfl⟩
    -- evaluate the first iteration
    have hnodeid : (Node.from_dict s1 nd).id = oid := by
      simp [Node.from_dict, hoid]
    have hcond : ({ Node.from_dict s1 nd with
        pos_x := (Node.from_dict s1 nd).pos_x + offs.1,
        pos_y := (Node.from_dict s1 nd).pos_y + offs.2 } : Node).id ∈ g.present := by
      show (Node.from_dict s1 nd).id ∈ g.present
      rw [hnodeid]
      exact hoidp
    have hstep : mergeNodeStep g filename offs (mp0, ns0, s1 :: s2 :: sup2) nd
        = (dinsert mp0 nd.id s2,
           ns0 ++ [mergeResolveName g filename
             { Node.from_dict s1 nd with
                 pos_x := (Node.from_dict s1 nd).pos_x + offs.1,
                 pos_y := (Node.from_dict s1 nd).pos_y + offs.2, id := s2 }],
           sup2) := by
      unfold mergeNodeStep
      dsimp only [List.headD, List.tail]
      rw [if_pos hcond]
    obtain ⟨nm, hnm⟩ := mergeResolveName_shape g filename
      { Node.from_dict s1 nd with
          pos_x := (Node.from_dict s1 nd).pos_x + offs.1,
          pos_y := (Node.from_dict s1 nd).pos_y + offs.2, id := s2 }
    rw [List.map_cons, List.nodup_cons] at hknodup
    have hknodup' := hknodup
    have hrest_fresh : ∀ nd' ∈ rest, dget (dinsert mp0 nd.id s2) nd'.id = none := by
      intro nd' hnd'
      have hne : nd'.id ≠ nd.id := by
        intro he
        exact hknodup'.1 (he ▸ List.mem_map_of_mem NodeData.id hnd')
      rw [dget_dinsert_ne _ _ _ _ hne]
      exact hkfresh nd' (List.mem_cons_of_mem _ hnd')
    have hsnodup2 := hsnodup
    rw [List.nodup_cons] at hsnodup2
    have hsnodup3 := hsnodup2.2
    rw [List.nodup_cons] at hsnodup3
    have ihr := ih (dinsert mp0 nd.id s2)
      (ns0 ++ [mergeResolveName g filename
        { Node.from_dict s1 nd with
            pos_x := (Node.from_dict s1 nd).pos_x + offs.1,
            pos_y := (Node.from_dict s1 nd).pos_y + offs.2, id := s2 }])
      sup2
      (fun nd' hnd' => hcoll nd' (List.mem_cons_of_mem _ hnd'))
      hknodup'.2 hrest_fresh hsnodup3.2
      (by simp only [List.length_cons] at hslen ⊢; omega)
    obtain ⟨extra', h1, h2, h3, h4, h5, h6⟩ := ihr
    have hndid_notin : nd.id ∉ rest.map NodeData.id := by simpa using hknodup'.1
    have hmpfinal : dget (rest.foldl (mergeNodeStep g filename offs)
        (dinsert mp0 nd.id s2,
         ns0 ++ [mergeResolveName g filename
           { Node.from_dict s1 nd with
               pos_x := (Node.from_dict s1 nd).pos_x + offs.1,
               pos_y := (Node.from_dict s1 nd).pos_y + offs.2, id := s2 }],
         sup2)).1 nd.id = some s2 := by
      rw [h5 nd.id hndid_notin, dget_dinsert_self]
    have hid2 : (mergeResolveName g filename
        { Node.from_dict s1 nd with
            pos_x := (Node.from_dict s1 nd).pos_x + offs.1,
            pos_y := (Node.from_dict s1 nd).pos_y + offs.2, id := s2 }).id = s2 := by
      rw [hnm]
    have hdirty2 : (mergeResolveName g filename
        { Node.from_dict s1 nd with
            pos_x := (Node.from_dict s1 nd).pos_x + offs.1,
            pos_y := (Node.from_dict s1 nd).pos_y + offs.2, id := s2 }).is_dirty
        = nd.is_dirty.getD false := by
      rw [hnm]
      rfl
    refine ⟨mergeResolveName g filename
      { Node.from_dict s1 nd with
          pos_x := (Node.from_dict s1 nd).pos_x + offs.1,
          pos_y := (Node.from_dict s1 nd).pos_y + offs.2, id := s2 } :: extra',
      ?_, ?_, ?_, ?_, ?_, ?_⟩
    · rw [List.foldl_cons, hstep, h1]
      simp
    · rw [List.foldl_cons, hstep, h2]
      have harith : 2 * (rest.length + 1) = 2 * rest.length + 2 := by ring
      simp only [List.length_cons, harith, List.drop_succ_cons]
    · rw [List.map_cons, List.nodup_cons, hid2]
      refine ⟨?_, h3⟩
      intro hmem
      have := h4 s2 hmem
      have hs2take : s2 ∈ sup2 := List.mem_of_mem_take this
      exact hsnodup3.1 hs2take
    · intro x hx
      rw [List.map_cons, List.mem_cons] at hx
      have harith : 2 * (rest.length + 1) = 2 * rest.length + 2 := by ring
      simp only [List.length_cons, harith, List.take_succ_cons]
      rcases hx with rfl | hx'
      · rw [hid2]
        exact List.mem_cons_of_mem _ (List.mem_cons_self _ _)
      · exact List.mem_cons_of_mem _ (List.mem_cons_of_mem _ (h4 x hx'))
    · intro k hk
      rw [List.map_cons, List.mem_cons] at hk
      push_neg at hk
      rw [List.foldl_cons, hstep, h5 k hk.2, dget_dinsert_ne _ _ _ _ hk.1]
    · rw [List.foldl_cons, hstep]
      refine List.Forall₂.cons ⟨hdirty2, ?_⟩ h6
      rw [hid2]
      exact hmpfinal

/-- Characterisation of `merge_graph`'s step 2: adding the processed
nodes (inputs cleared) appends their fresh ids to the node dict. -/
theorem merge_addNodes_fold (g0 : Graph) :
    ∀ (nodes : List Node),
      (nodes.map Node.id).Nodup →
      (∀ n ∈ nodes, n.id ∉ g0.present) →
      (nodes.foldl (fun h node => h.add_node { node with input_links := [] }) g0).present
        = g0.present ++ nodes.map Node.id ∧
      (nodes.foldl (fun h node => h.add_node { node with input_links := [] }) g0).links
        = g0.links ∧
      (∀ id, id ∉ nodes.map Node.id →
        dget (nodes.foldl (fun h node => h.add_node { node with input_links := [] }) g0).heap id
          = dget g0.heap id) ∧
      (∀ n ∈ nodes,
        dget (nodes.foldl (fun h node => h.add_node { node with input_links := [] }) g0).heap n.id
          = some { n with input_links := [] }) := by
  intro nodes
  induction nodes generalizing g0 with
  | nil => intro _ _; exact ⟨by simp, rfl, fun id _ => rfl, fun n hn => absurd hn (List.not_mem_nil n)⟩
  | cons node rest ih =>
    intro hnodup hfresh
    rw [List.map_cons, List.nodup_cons] at hnodup
    have hstep : g0.add_node { node with input_links := [] }
        = { g0 with
            heap := dinsert g0.heap node.id { node with input_links := [] }
            present := g0.present ++ [node.id] } := by
      unfold Graph.add_node
      rw [if_neg (hfresh node (List.mem_cons_self _ _))]
    have hrest_fresh : ∀ n ∈ rest,
        n.id ∉ ({ g0 with
            heap := dinsert g0.heap node.id { node with input_links := [] }
            present := g0.present ++ [node.id] } : Graph).present := by
      intro n hn
      dsimp only
      rw [List.mem_append, List.mem_singleton]
      push_neg
      exact ⟨hfresh n (List.mem_cons_of_mem _ hn),
        fun he => hnodup.1 (he ▸ List.mem_map_of_mem Node.id hn)⟩
    obtain ⟨ihp, ihl, ihh, ihn⟩ := ih _ hnodup.2 hrest_fresh
    rw [List.foldl_cons, hstep] at *
    refine ⟨?_, ihl, ?_, ?_⟩
    · rw [ihp]
      simp
    · intro id hid
      rw [List.map_cons, List.mem_cons] at hid
      push_neg at hid
      rw [ihh id hid.2]
      exact dget_dinsert_ne _ _ _ _ hid.1
    · intro n hn
      rcases List.mem_cons.mp hn with rfl | hn'
      · rw [ihh n.id (by simpa using hnodup.1), dget_dinsert_self]
      · exact ihn n hn'

/-- `add_link` with `trigger_dirty=False` keeps the node-id list and
every node's dirty flag, and grows the link dict by exactly the fresh
link. -/
theorem add_link_no_dirty (h : Graph) (lid s t : Str) (hfresh : dget h.links lid = none) :
    (h.add_link lid s t false).present = h.present ∧
    (∀ id, ((h.add_link lid s t false).getNode id).map Node.is_dirty
      = (h.getNode id).map Node.is_dirty) ∧
    (h.add_link lid s t false).links.length = h.links.length + 1 ∧
    dkeys (h.add_link lid s t false).links = dkeys h.links ++ [lid] := by
  have hkeys : ∀ (d : List (Str × Link)) (v : Link), dget d lid = none →
      dkeys (dinsert d lid v) = dkeys d ++ [lid] := by
    intro d v hd
    induction d with
    | nil => rfl
    | cons p r ihd =>
      simp only [dget] at hd
      by_cases hp : p.1 = lid
      · rw [if_pos hp] at hd
        cases hd
      · rw [if_neg hp] at hd
        simp only [dinsert, if_neg hp, dkeys, List.map_cons]
        have := ihd hd
        simp only [dkeys] at this
        rw [this]
        simp
  unfold Graph.add_link
  dsimp only
  by_cases hmem : t ∈ h.present
  · rw [if_pos hmem]
    unfold Graph.updNode
    cases hget : dget h.heap t with
    | none =>
      dsimp only
      rw [if_neg Bool.false_ne_true]
      exact ⟨rfl, fun id => rfl, by rw [dinsert_length_of_fresh _ _ _ hfresh],
        hkeys _ _ hfresh⟩
    | some tn =>
      dsimp only
      rw [if_neg Bool.false_ne_true]
      refine ⟨rfl, ?_, by rw [dinsert_length_of_fresh _ _ _ hfresh], hkeys _ _ hfresh⟩
      intro id
      unfold Graph.getNode
      dsimp only
      by_cases hidp : id ∈ h.present
      · rw [if_pos hidp, if_pos hidp]
        by_cases hidt : id = t
        · subst hidt
          rw [dget_dinsert_self, hget]
          rfl
        · rw [dget_dinsert_ne _ _ _ _ hidt]
      · rw [if_neg hidp, if_neg hidp]
  · rw [if_neg hmem]
    exact ⟨rfl, fun id => rfl, by rw [dinsert_length_of_fresh _ _ _ hfresh],
      hkeys _ _ hfresh⟩

/-- Characterisation of `merge_graph`'s step 3 when every incoming link
record remaps to truthy endpoints: each iteration rewires one link with
a fresh id and never touches dirty state or the node-id list. -/
theorem mergeLinkStep_fold (id_map : List (Option Str × Str)) :
    ∀ (lds : List LinkData) (g0 : Graph) (sup : List Str),
      (∀ ld ∈ lds, ((ld.source.bind (fun k => dget id_map (some k))).getD []) ≠ [] ∧
        ((ld.target.bind (fun k => dget id_map (some k))).getD []) ≠ []) →
      lds.length ≤ sup.length →
      sup.Nodup →
      (∀ x ∈ sup, x ∉ dkeys g0.links) →
      (lds.foldl (mergeLinkStep id_map) (g0, sup)).1.present = g0.present ∧
      (∀ id, (((lds.foldl (mergeLinkStep id_map) (g0, sup)).1.getNode id).map Node.is_dirty)
        = ((g0.getNode id).map Node.is_dirty)) ∧
      (lds.foldl (mergeLinkStep id_map) (g0, sup)).1.links.length
        = g0.links.length + lds.length := by
  intro lds
  induction lds with
  | nil => intro g0 sup _ _ _ _; exact ⟨rfl, fun id => rfl, by simp⟩
  | cons ld rest ih =>
    intro g0 sup hpass hlen hnodup hfreshl
    obtain ⟨s1, sup1, rfl⟩ : ∃ s1 sup1, sup = s1 :: sup1 := by
      cases sup with
      | nil =>
        exfalso
        simp only [List.length_cons, List.length_nil] at hlen
        omega
      | cons a b => exact ⟨a, b, rfl⟩
    have hp := hpass ld (List.mem_cons_self _ _)
    have hstep : mergeLinkStep id_map (g0, s1 :: sup1) ld
        = (g0.add_link s1 ((ld.source.bind (fun k => dget id_map (some k))).getD [])
            ((ld.target.bind (fun k => dget id_map (some k))).getD []) false, sup1) := by
      unfold mergeLinkStep
      dsimp only [List.headD, List.tail]
      rw [if_pos hp]
    have hs1fresh : dget g0.links s1 = none :=
      dget_eq_none_of_not_mem _ _ (hfreshl s1 (List.mem_cons_self _ _))
    obtain ⟨hap, had, hal, hak⟩ := add_link_no_dirty g0 s1
      ((ld.source.bind (fun k => dget id_map (some k))).getD [])
      ((ld.target.bind (fun k => dget id_map (some k))).getD []) hs1fresh
    rw [List.nodup_cons] at hnodup
    have hfresh' : ∀ x ∈ sup1, x ∉ dkeys (g0.add_link s1
        ((ld.source.bind (fun k => dget id_map (some k))).getD [])
        ((ld.target.bind (fun k => dget id_map (some k))).getD []) false).links := by
      intro x hx
      rw [hak, List.mem_append, List.mem_singleton]
      push_neg
      exact ⟨hfreshl x (List.mem_cons_of_mem _ hx), fun he => hnodup.1 (he ▸ hx)⟩
    obtain ⟨ihp, ihd, ihl⟩ := ih _ sup1
      (fun l hl => hpass l (List.mem_cons_of_mem _ hl))
      (by simp only [List.length_cons] at hlen; omega) hnodup.2 hfresh'
    rw [List.foldl_cons, hstep]
    refine ⟨ihp.trans hap, ?_, ?_⟩
    · intro id
      rw [ihd id, had id]
    · rw [ihl, hal]
      simp only [List.length_cons]
      omega

theorem forall2_map_self {α β : Type} (f : α → β) (l : List α) :
    List.Forall₂ (fun a b => b = f a) l (l.map f) := by
  induction l with
  | nil => exact List.Forall₂.nil
  | cons x rest ih => exact List.Forall₂.cons rfl ih

theorem forall2_and_mem_right {α β : Type} {R : α → β → Prop} :
    ∀ {as : List α} {bs : List β}, List.Forall₂ R as bs →
      List.Forall₂ (fun a b => R a b ∧ b ∈ bs) as bs := by
  intro as bs h
  induction h with
  | nil => exact List.Forall₂.nil
  | cons hr hrest ih =>
    refine List.Forall₂.cons ⟨hr, List.mem_cons_self _ _⟩ (ih.imp ?_)
    intro a b hab
    exact ⟨hab.1, List.mem_cons_of_mem _ hab.2⟩

theorem map_eq_map_of_forall2 {α β γ : Type} {R : α → β → Prop}
    (f : β → γ) (s : α → γ) (hfs : ∀ a b, R a b → f b = s a) :
    ∀ {as : List α} {bs : List β}, List.Forall₂ R as bs → bs.map f = as.map s := by
  intro as bs h
  induction h with
  | nil => rfl
  | cons hr hrest ih =>
    simp only [List.map_cons, ih, hfs _ _ hr]

theorem nodeDirty_eq_map (g : Graph) (id : Str) :
    g.nodeDirty id = ((g.getNode id).map Node.is_dirty).getD false := by
  unfold Graph.nodeDirty
  cases g.getNode id with
  | none => rfl
  | some n => rfl

/-- C6: merging a graph's own serialized form into itself doubles the
node count with all ids unique, preserves every existing node's dirty
flag, gives every merged-in copy exactly the dirty flag of its source
node (no dirty cascade from the rewired links — they are added with
dirty marking suppressed), and doubles the link count (every link is
rewired).  Fresh `uuid4` ids are the `supply`, assumed unique, unused
and non-empty. -/
theorem C6_self_merge (g : Graph) (filename : Str) (supply : List Str)
    (hpnodup : g.present.Nodup)
    (hheap : ∀ id ∈ g.present, (dget g.heap id).isSome = true)
    (hid : ∀ id ∈ g.present, ∀ n, dget g.heap id = some n → n.id = id)
    (hWF : ∀ p ∈ g.links, p.2.source_id ∈ g.present ∧ p.2.target_id ∈ g.present)
    (hsnodup : supply.Nodup)
    (hsfresh : ∀ x ∈ supply, x ∉ g.present ∧ x ≠ [] ∧ x ∉ dkeys g.links)
    (hslen : 2 * g.present.length + g.links.length ≤ supply.length) :
    ∃ newIds : List Str,
      (g.merge_graph g.to_dict filename supply).present = g.present ++ newIds ∧
      List.Forall₂ (fun oid nid => ∀ n, dget g.heap oid = some n →
        (g.merge_graph g.to_dict filename supply).nodeDirty nid = n.is_dirty)
        g.present newIds ∧
      (g.merge_graph g.to_dict filename supply).present.length = 2 * g.present.length ∧
      (g.merge_graph g.to_dict filename supply).present.Nodup ∧
      (∀ id ∈ g.present, (g.merge_graph g.to_dict filename supply).nodeDirty id
        = g.nodeDirty id) ∧
      (g.merge_graph g.to_dict filename supply).links.length = 2 * g.links.length := by
  unfold Graph.merge_graph
  generalize g.mergeOffsets g.to_dict = offs
  unfold Graph.mergeBody
  dsimp only
  -- notation
  have hv := nodeValues_forall2 g hheap
  have hvl : g.nodeValues.length = g.present.length := (List.Forall₂.length_eq hv).symm
  have hmapd : List.Forall₂ (fun n nd => nd = Node.to_dict n) g.nodeValues g.to_dict.nodes :=
    forall2_map_self Node.to_dict g.nodeValues
  have hndl : g.to_dict.nodes.length = g.present.length := by
    have := List.Forall₂.length_eq hmapd
    omega
  -- membership-aware present ↔ node-record correspondence
  have hPN : List.Forall₂ (fun oid nd => ∃ n, dget g.heap oid = some n ∧ nd = Node.to_dict n)
      g.present g.to_dict.nodes :=
    forall2_comp (fun oid n nd h1 h2 => ⟨n, h1, h2⟩) hv hmapd
  have hPNmem := forall2_and_mem_right (forall2_and_mem_right hPN).flip
  -- wait: need membership of oid; reorganise below
  have hPNid : List.Forall₂ (fun oid nd => nd.id = some oid) g.present g.to_dict.nodes := by
    refine (forall2_and_mem_right (R := fun nd oid => ∃ n,
      dget g.heap oid = some n ∧ nd = Node.to_dict n) hPN.flip).flip.imp ?_
    intro oid nd h
    obtain ⟨⟨n, hn, rfl⟩, hmem⟩ := h
    show (Node.to_dict n).id = some oid
    unfold Node.to_dict
    dsimp only
    rw [hid oid hmem n hn]
  have hmapids : g.to_dict.nodes.map NodeData.id = g.present.map some :=
    map_eq_map_of_forall2 NodeData.id some (fun a b hr => hr) hPNid
  have hcoll : ∀ nd ∈ g.to_dict.nodes, ∃ oid, nd.id = some oid ∧ oid ∈ g.present := by
    intro nd hnd
    obtain ⟨oid, hoid, hr⟩ := forall2_mem_left hPNid.flip nd hnd
    exact ⟨oid, hr, hoid⟩
  have hknodup : (g.to_dict.nodes.map NodeData.id).Nodup := by
    rw [hmapids]
    exact hpnodup.map (fun a b h => Option.some_injective _ h)
  have hslen1 : 2 * g.to_dict.nodes.length ≤ supply.length := by omega
  obtain ⟨extra, hA1, hA2, hA3, hA4, hA5, hA6⟩ :=
    mergeNodeStep_fold g filename offs g.to_dict.nodes [] [] supply hcoll hknodup
      (fun nd _ => rfl) hsnodup hslen1
  rw [List.nil_append] at hA1
  have hextlen : extra.length = g.present.length := by
    have := List.Forall₂.length_eq hA6
    omega
  have hextra_fresh : ∀ n ∈ extra, n.id ∈ supply ∧ n.id ∉ g.present ∧ n.id ≠ [] := by
    intro n hn
    have hmem := hA4 n.id (List.mem_map_of_mem Node.id hn)
    have hsup := List.mem_of_mem_take hmem
    exact ⟨hsup, (hsfresh n.id hsup).1, (hsfresh n.id hsup).2.1⟩
  obtain ⟨hB1, hB2, hB3, hB4⟩ := merge_addNodes_fold g extra hA3
    (fun n hn => (hextra_fresh n hn).2.1)
  rw [hA1]
  -- the remaining supply for the link phase
  have hsup2 := hA2
  have hdroplen : (supply.drop (2 * g.to_dict.nodes.length)).length
      = supply.length - 2 * g.to_dict.nodes.length := List.length_drop _ _
  have hdrop_nodup : (supply.drop (2 * g.to_dict.nodes.length)).Nodup :=
    (List.drop_sublist _ _).nodup hsnodup
  have hdrop_mem : ∀ x ∈ supply.drop (2 * g.to_dict.nodes.length), x ∈ supply :=
    fun x hx => (List.drop_sublist _ _).mem hx
  -- link records and the truthiness condition
  have hlinkmap : g.to_dict.links = g.links.map (fun p =>
      ({ id := some p.2.id, source := some p.2.source_id, target := some p.2.target_id }
        : LinkData)) := rfl
  have hmp_hit : ∀ oid ∈ g.present, ∃ nid,
      dget (g.to_dict.nodes.foldl (mergeNodeStep g filename offs) ([], [], supply)).1
        (some oid) = some nid ∧ nid ≠ [] := by
    intro oid hoid
    obtain ⟨nd, hnd, hndid⟩ := forall2_mem_left hPNid oid hoid
    obtain ⟨node, hnode, hrel⟩ := forall2_mem_left (forall2_and_mem_right hA6) nd hnd
    refine ⟨node.id, ?_, ?_⟩
    · rw [← hndid]
      exact hrel.1.2
    · exact (hextra_fresh node hrel.2).2.2
  have hpass : ∀ ld ∈ g.to_dict.links,
      ((ld.source.bind (fun k =>
        dget (g.to_dict.nodes.foldl (mergeNodeStep g filename offs) ([], [], supply)).1
          (some k))).getD []) ≠ [] ∧
      ((ld.target.bind (fun k =>
        dget (g.to_dict.nodes.foldl (mergeNodeStep g filename offs) ([], [], supply)).1
          (some k))).getD []) ≠ [] := by
    intro ld hld
    rw [hlinkmap] at hld
    obtain ⟨p, hp, rfl⟩ := List.mem_map.mp hld
    obtain ⟨ns, hns, hnsne⟩ := hmp_hit p.2.source_id (hWF p hp).1
    obtain ⟨nt, hnt, hntne⟩ := hmp_hit p.2.target_id (hWF p hp).2
    constructor
    · show (dget (g.to_dict.nodes.foldl (mergeNodeStep g filename offs)
          ([], [], supply)).1 (some p.2.source_id)).getD [] ≠ []
      rw [hns]
      exact hnsne
    · show (dget (g.to_dict.nodes.foldl (mergeNodeStep g filename offs)
          ([], [], supply)).1 (some p.2.target_id)).getD [] ≠ []
      rw [hnt]
      exact hntne
  have hlinklen : g.to_dict.links.length = g.links.length := by
    rw [hlinkmap, List.length_map]
  obtain ⟨hC1, hC2, hC3⟩ := mergeLinkStep_fold
    (g.to_dict.nodes.foldl (mergeNodeStep g filename offs) ([], [], supply)).1
    g.to_dict.links
    (extra.foldl (fun h node => h.add_node { node with input_links := [] }) g)
    (supply.drop (2 * g.to_dict.nodes.length))
    hpass
    (by rw [hlinklen]; omega)
    hdrop_nodup
    (by
      intro x hx
      rw [hB2]
      exact (hsfresh x (hdrop_mem x hx)).2.2)
  rw [hsup2]
  refine ⟨extra.map Node.id, ?_, ?_, ?_, ?_, ?_, ?_⟩
  · rw [hC1, hB1]
  · -- merged copies take their source nodes' dirty flags
    have hPE : List.Forall₂ (fun oid node => (∀ n, dget g.heap oid = some n →
        node.is_dirty = n.is_dirty) ∧ node ∈ extra) g.present extra := by
      refine forall2_and_mem_right (forall2_comp ?_ hPN hA6)
      intro oid nd node h1 h2
      intro n hn
      obtain ⟨n₀, hn₀, rfl⟩ := h1
      rw [hn₀] at hn
      cases hn
      rw [h2.1]
      rfl
    rw [List.forall₂_map_right_iff]
    refine hPE.imp ?_
    intro oid node h n hn
    rw [nodeDirty_eq_map, hC2 node.id]
    have hlook : dget (extra.foldl (fun h node => h.add_node { node with input_links := [] })
        g).heap node.id = some { node with input_links := [] } := hB4 node h.2
    unfold Graph.getNode
    rw [hB1, if_pos (by
      rw [List.mem_append]
      exact Or.inr (List.mem_map_of_mem Node.id h.2))]
    rw [hlook]
    show ({ node with input_links := [] } : Node).is_dirty = n.is_dirty
    show node.is_dirty = n.is_dirty
    exact h.1 n hn
  · rw [hC1, hB1]
    simp only [List.length_append, List.length_map]
    omega
  · rw [hC1, hB1]
    refine hpnodup.append ((hA3 : (extra.map Node.id).Nodup)) ?_
    intro x hx hx2
    obtain ⟨node, hnode, rfl⟩ := List.mem_map.mp hx2
    exact (hextra_fresh node hnode).2.1 hx
  · intro id hidp
    rw [nodeDirty_eq_map, hC2 id, nodeDirty_eq_map]
    unfold Graph.getNode
    rw [hB1, if_pos (by rw [List.mem_append]; exact Or.inl hidp), if_pos hidp]
    rw [hB3 id (by
      intro hmem
      obtain ⟨node, hnode, he⟩ := List.mem_map.mp hmem
      exact (hextra_fresh node hnode).2.1 (he ▸ hidp))]
  · rw [hC3, hB2, hlinklen]
    omega

/-- Concrete two-node graph for exercising self-merge: `a` is dirty, `b` is clean,
one link `a → b`. -/
def gW6 : Graph :=
  { heap := [("a".toList, { defNode "a".toList with is_dirty := true, name := "NA".toList }),
             ("b".toList, { defNode "b".toList with name := "NB".toList, input_links := ["l1".toList] })]
    present := ["a".toList, "b".toList]
    links := [("l1".toList, { source_id := "a".toList, target_id := "b".toList,
                              id := "l1".toList })]
    global_token_limit := 16384 }

def fnW6 : Str := "file".toList

def supW6 : List Str :=
  ["u1".toList, "u2".toList, "u3".toList, "u4".toList, "u5".toList, "u6".toList]

theorem gW6_ids : ∀ id ∈ gW6.present, ∀ n, dget gW6.heap id = some n → n.id = id := by
  intro id hid n hn
  have hid2 : id ∈ ["a".toList, "b".toList] := hid
  fin_cases hid2
  · rw [← Option.some.inj hn]; rfl
  · rw [← Option.some.inj hn]; rfl

/-- C6 witness: the self-merge theorem instantiated on the concrete graph `gW6`,
with every hypothesis discharged at that input. -/
theorem C6_self_merge_witness :
    gW6.present.Nodup ∧
    (∀ id ∈ gW6.present, (dget gW6.heap id).isSome = true) ∧
    (∀ id ∈ gW6.present, ∀ n, dget gW6.heap id = some n → n.id = id) ∧
    (∀ p ∈ gW6.links, p.2.source_id ∈ gW6.present ∧ p.2.target_id ∈ gW6.present) ∧
    supW6.Nodup ∧
    (∀ x ∈ supW6, x ∉ gW6.present ∧ x ≠ [] ∧ x ∉ dkeys gW6.links) ∧
    2 * gW6.present.length + gW6.links.length ≤ supW6.length ∧
    (∃ newIds : List Str,
      (gW6.merge_graph gW6.to_dict fnW6 supW6).present = gW6.present ++ newIds ∧
      List.Forall₂ (fun oid nid => ∀ n, dget gW6.heap oid = some n →
        (gW6.merge_graph gW6.to_dict fnW6 supW6).nodeDirty nid = n.is_dirty)
        gW6.present newIds ∧
      (gW6.merge_graph gW6.to_dict fnW6 supW6).present.length = 2 * gW6.present.length ∧
      (gW6.merge_graph gW6.to_dict fnW6 supW6).present.Nodup ∧
      (∀ id ∈ gW6.present, (gW6.merge_graph gW6.to_dict fnW6 supW6).nodeDirty id
        = gW6.nodeDirty id) ∧
      (gW6.merge_graph gW6.to_dict fnW6 supW6).links.length = 2 * gW6.links.length) :=
  ⟨by decide, by decide, gW6_ids, by decide, by decide, by decide, by decide,
   C6_self_merge gW6 fnW6 supW6 (by decide) (by decide) gW6_ids (by decide)
     (by decide) (by decide) (by decide)⟩

/-! ### Claim C1: the command layer (`src/core/command.py`, `src/core/command_manager.py`) -/

theorem dinsert_dget_self {κ α : Type} [DecidableEq κ] (d : List (κ × α)) (k : κ) (v : α)
    (h : dget d k = some v) : dinsert d k v = d := by
  induction d with
  | nil => simp [dget] at h
  | cons p rest ih =>
    by_cases hk : p.1 = k
    · have hv : p.2 = v := by
        simp only [dget, if_pos hk] at h
        exact Option.some.inj h
      simp only [dinsert, if_pos hk]
      rw [← hk, ← hv]
    · simp only [dget, if_neg hk] at h
      simp only [dinsert, if_neg hk]
      rw [ih h]

theorem dinsert_dinsert {κ α : Type} [DecidableEq κ] (d : List (κ × α)) (k : κ) (v w : α) :
    dinsert (dinsert d k v) k w = dinsert d k w := by
  induction d with
  | nil => simp [dinsert]
  | cons p rest ih =>
    by_cases hk : p.1 = k
    · simp [dinsert, hk]
    · simp [dinsert, hk, ih]

theorem dinsert_comm_of_mem {κ α : Type} [DecidableEq κ] (d : List (κ × α)) (k k' : κ)
    (v w a b : α) (hne : k ≠ k') (ha : dget d k = some a) (hb : dget d k' = some b) :
    dinsert (dinsert d k v) k' w = dinsert (dinsert d k' w) k v := by
  induction d with
  | nil => simp [dget] at ha
  | cons p rest ih =>
    by_cases hk : p.1 = k
    · have hpk' : p.1 ≠ k' := by rw [hk]; exact hne
      simp only [dinsert, if_pos hk, if_neg hne, if_neg hpk']
    · by_cases hk' : p.1 = k'
      · have hpk : p.1 ≠ k := by rw [hk']; exact Ne.symm hne
        simp only [dinsert, if_pos hk', if_neg (Ne.symm hne), if_neg hpk]
      · have ha' : dget rest k = some a := by
          simp only [dget, if_neg hk] at ha
          exact ha
        have hb' : dget rest k' = some b := by
          simp only [dget, if_neg hk'] at hb
          exact hb
        simp only [dinsert, if_neg hk, if_neg hk']
        rw [ih ha' hb']

theorem updNode_present (g : Graph) (id : Str) (f : Node → Node) :
    (g.updNode id f).present = g.present := by
  unfold Graph.updNode
  cases dget g.heap id <;> rfl

theorem updNode_links (g : Graph) (id : Str) (f : Node → Node) :
    (g.updNode id f).links = g.links := by
  unfold Graph.updNode
  cases dget g.heap id <;> rfl

theorem updNode_gtl (g : Graph) (id : Str) (f : Node → Node) :
    (g.updNode id f).global_token_limit = g.global_token_limit := by
  unfold Graph.updNode
  cases dget g.heap id <;> rfl

theorem updNode_eq (g : Graph) (id : Str) (f : Node → Node) (n : Node)
    (h : dget g.heap id = some n) :
    g.updNode id f = { g with heap := dinsert g.heap id (f n) } := by
  unfold Graph.updNode
  rw [h]

theorem updNode_none (g : Graph) (id : Str) (f : Node → Node)
    (h : dget g.heap id = none) : g.updNode id f = g := by
  unfold Graph.updNode
  rw [h]

theorem updNode_restore (g : Graph) (id : Str) (f f' : Node → Node)
    (hff : ∀ n, dget g.heap id = some n → f' (f n) = n) :
    (g.updNode id f).updNode id f' = g := by
  cases h : dget g.heap id with
  | none =>
    rw [updNode_none g id f h, updNode_none g id f' h]
  | some n =>
    rw [updNode_eq g id f n h]
    rw [updNode_eq _ id f' (f n) (dget_dinsert_self _ _ _)]
    show { g with heap := dinsert (dinsert g.heap id (f n)) id (f' (f n)) } = g
    rw [hff n h, dinsert_dinsert, dinsert_dget_self _ _ _ h]

theorem updNode_comm (g : Graph) (id id' : Str) (f f' : Node → Node) (hne : id ≠ id') :
    (g.updNode id f).updNode id' f' = (g.updNode id' f').updNode id f := by
  cases h : dget g.heap id with
  | none =>
    rw [updNode_none g id f h]
    refine (updNode_none _ id f ?_).symm
    cases h' : dget g.heap id' with
    | none => rw [updNode_none g id' f' h']; exact h
    | some n' =>
      rw [updNode_eq g id' f' n' h']
      show dget (dinsert g.heap id' (f' n')) id = none
      rw [dget_dinsert_ne _ _ _ _ hne]
      exact h
  | some n =>
    cases h' : dget g.heap id' with
    | none =>
      rw [updNode_none g id' f' h']
      refine updNode_none _ id' f' ?_
      rw [updNode_eq g id f n h]
      show dget (dinsert g.heap id (f n)) id' = none
      rw [dget_dinsert_ne _ _ _ _ (Ne.symm hne)]
      exact h'
    | some n' =>
      have e1 : (g.updNode id f).updNode id' f' =
          { g with heap := dinsert (dinsert g.heap id (f n)) id' (f' n') } := by
        rw [updNode_eq g id f n h]
        exact updNode_eq _ id' f' n' (by
          show dget (dinsert g.heap id (f n)) id' = some n'
          rw [dget_dinsert_ne _ _ _ _ (Ne.symm hne)]
          exact h')
      have e2 : (g.updNode id' f').updNode id f =
          { g with heap := dinsert (dinsert g.heap id' (f' n')) id (f n) } := by
        rw [updNode_eq g id' f' n' h']
        exact updNode_eq _ id f n (by
          show dget (dinsert g.heap id' (f' n')) id = some n
          rw [dget_dinsert_ne _ _ _ _ hne]
          exact h)
      rw [e1, e2, dinsert_comm_of_mem g.heap id id' (f n) (f' n') n n' hne h h']

theorem foldl_gtl {α : Type} (step : Graph → α → Graph)
    (hstep : ∀ g x, (step g x).global_token_limit = g.global_token_limit) :
    ∀ (l : List α) (g : Graph),
      (l.foldl step g).global_token_limit = g.global_token_limit := by
  intro l
  induction l with
  | nil => intro g; rfl
  | cons x rest ih =>
    intro g
    rw [List.foldl_cons, ih]
    exact hstep g x

theorem markDirtyAux_gtl : ∀ (f : Nat) (g : Graph) (n : Str),
    (Graph.markDirtyAux f g n).global_token_limit = g.global_token_limit := by
  intro f
  induction f with
  | zero => intro g n; rfl
  | succ f ih =>
    intro g n
    unfold Graph.markDirtyAux
    by_cases hmem : n ∈ g.present
    · rw [if_pos hmem]
      cases hg : dget g.heap n with
      | none => rfl
      | some node =>
        dsimp only
        by_cases hnd : node.is_dirty = true
        · rw [if_pos hnd]
        · rw [if_neg hnd]
          exact foldl_gtl _ (fun g' c => ih g' c) _ _
    · rw [if_neg hmem]

theorem mark_dirty_gtl (g : Graph) (n : Str) :
    (g.mark_dirty n).global_token_limit = g.global_token_limit :=
  markDirtyAux_gtl _ g n

/-- One entry of `MoveNodesCommand.move_data`: `(node_id, old_x, old_y, new_x, new_y)`. -/
abbrev MoveDatum := Str × Int × Int × Int × Int

/-- One step of `MoveNodesCommand.execute`: if the node is in the graph, set its
position to the new coordinates. -/
def moveStepNew (h : Graph) (t : MoveDatum) : Graph :=
  if t.1 ∈ h.present then
    h.updNode t.1 (fun n => { n with pos_x := t.2.2.2.1, pos_y := t.2.2.2.2 })
  else h

/-- One step of `MoveNodesCommand.undo`: if the node is in the graph, set its
position back to the old coordinates. -/
def moveStepOld (h : Graph) (t : MoveDatum) : Graph :=
  if t.1 ∈ h.present then
    h.updNode t.1 (fun n => { n with pos_x := t.2.1, pos_y := t.2.2.1 })
  else h

/-- The link-installing block shared by `AddLinkCommand.execute`,
`DeleteLinkCommand.undo`, the link loop of `PasteNodesAndLinksCommand.execute`
(`trigger_dirty = true`) and the link-restore loop of `DeleteNodesCommand.undo`
(`trigger_dirty = false`): `self.graph.links[link.id] = link`, append the link id
to the target's `input_links` unless already recorded, and optionally mark the
target dirty.  The append and the dirty marking only happen when the target node
is in the graph. -/
def Graph.install_link (g : Graph) (link : Link) (trigger_dirty : Bool) : Graph :=
  let g1 : Graph := { g with links := dinsert g.links link.id link }
  if link.target_id ∈ g1.present then
    let g2 : Graph := g1.updNode link.target_id (fun tn =>
      if link.id ∈ tn.input_links then tn
      else { tn with input_links := tn.input_links ++ [link.id] })
    if trigger_dirty then g2.mark_dirty link.target_id else g2
  else g1

/-- `self.graph.add_node(self.node)` for a command holding a node object by
reference: the object's current state is the heap entry under its id (see the
module comment on the aliasing model). -/
def Graph.add_node_ref (g : Graph) (nid : Str) : Graph :=
  match dget g.heap nid with
  | some n => g.add_node n
  | none => g

/-- `src/core/command.py`: one constructor per concrete `Command` subclass,
holding the constructor arguments.  Node objects held by a command
(`AddNodeCommand.node`, `DeleteNodesCommand.nodes`,
`PasteNodesAndLinksCommand.nodes`) are represented by their heap ids, since a
command aliases the live objects; captured `Link` objects are never mutated and
are held by value. -/
inductive Cmd where
  | addNode (nid : Str)
  | deleteNodes (nids : List Str) (links : List Link)
  | moveNodes (move_data : List MoveDatum)
  | addLink (link : Link)
  | deleteLink (link : Link)
  | editPrompt (node_id old_text new_text : Str)
  | editOutput (node_id old_text new_text : Str)
  | renameNode (node_id old_name new_name : Str)
  | pasteNodesAndLinks (nids : List Str) (links : List Link)
deriving DecidableEq

/-- `Command.execute` of each subclass, as a graph transformation. -/
def Cmd.execute : Cmd → Graph → Graph
  | .addNode nid, g => g.add_node_ref nid
  | .deleteNodes nids _, g => nids.foldl Graph.remove_node g
  | .moveNodes md, g => md.foldl moveStepNew g
  | .addLink link, g => g.install_link link true
  | .deleteLink link, g => g.remove_link link.id
  | .editPrompt nid _ new_text, g =>
    if nid ∈ g.present then
      (g.updNode nid (fun n => { n with prompt := new_text })).mark_dirty nid
    else g
  | .editOutput nid _ new_text, g =>
    if nid ∈ g.present then g.updNode nid (fun n => { n with cached_output := new_text })
    else g
  | .renameNode nid _ new_name, g =>
    if nid ∈ g.present then g.updNode nid (fun n => { n with name := new_name })
    else g
  | .pasteNodesAndLinks nids links, g =>
    links.foldl (fun h link => h.install_link link true) (nids.foldl Graph.add_node_ref g)

/-- `Command.undo` of each subclass. -/
def Cmd.undo : Cmd → Graph → Graph
  | .addNode nid, g => g.remove_node nid
  | .deleteNodes nids links, g =>
    links.foldl (fun h link => h.install_link link false) (nids.foldl Graph.add_node_ref g)
  | .moveNodes md, g => md.foldl moveStepOld g
  | .addLink link, g => g.remove_link link.id
  | .deleteLink link, g => g.install_link link true
  | .editPrompt nid old_text _, g =>
    if nid ∈ g.present then
      (g.updNode nid (fun n => { n with prompt := old_text })).mark_dirty nid
    else g
  | .editOutput nid old_text _, g =>
    if nid ∈ g.present then g.updNode nid (fun n => { n with cached_output := old_text })
    else g
  | .renameNode nid old_name _, g =>
    if nid ∈ g.present then g.updNode nid (fun n => { n with name := old_name })
    else g
  | .pasteNodesAndLinks nids _, g => nids.foldl Graph.remove_node g

/-- `src/core/command_manager.py` `CommandManager` (the listener callbacks carry
no graph state and are omitted). -/
structure CommandManager where
  graph : Graph
  undo_stack : List Cmd
  redo_stack : List Cmd
  max_stack_size : Nat
deriving DecidableEq

/-- `CommandManager.execute`: run the command, append it to the undo stack
(dropping the oldest entry when the stack exceeds `max_stack_size`), clear the
redo stack. -/
def CommandManager.execute (m : CommandManager) (c : Cmd) : CommandManager :=
  { graph := c.execute m.graph
    undo_stack :=
      if m.max_stack_size < (m.undo_stack ++ [c]).length then (m.undo_stack ++ [c]).drop 1
      else m.undo_stack ++ [c]
    redo_stack := []
    max_stack_size := m.max_stack_size }

/-- `CommandManager.undo`: pop the last command, run its `undo`, push it on the
redo stack (no-op when the undo stack is empty). -/
def CommandManager.undo (m : CommandManager) : CommandManager :=
  match m.undo_stack.getLast? with
  | none => m
  | some c =>
    { graph := c.undo m.graph
      undo_stack := m.undo_stack.dropLast
      redo_stack := m.redo_stack ++ [c]
      max_stack_size := m.max_stack_size }

/-- `CommandManager.redo`: pop the last undone command, run its `execute`, push
it back on the undo stack (no-op when the redo stack is empty). -/
def CommandManager.redo (m : CommandManager) : CommandManager :=
  match m.redo_stack.getLast? with
  | none => m
  | some c =>
    { graph := c.execute m.graph
      undo_stack := m.undo_stack ++ [c]
      redo_stack := m.redo_stack.dropLast
      max_stack_size := m.max_stack_size }

/-- Side conditions under which a command's captured data matches the live graph
(commands are constructed by the controller from the current graph state): the
recorded old values are the node's current values, move entries name distinct
nodes, and an added node object is fresh and unlinked.  The four commands whose
`undo`/`execute` rebuild link bookkeeping (`deleteNodes`, `addLink`,
`deleteLink`, `pasteNodesAndLinks`) re-append restored entries and re-run
`mark_dirty`, so they are excluded here (see the counterexample). -/
def Cmd.undoable : Cmd → Graph → Prop
  | .addNode nid, g =>
    (dget g.heap nid).map Node.id = some nid ∧ nid ∉ g.present ∧
    ∀ p ∈ g.links, p.2.source_id ≠ nid ∧ p.2.target_id ≠ nid
  | .moveNodes md, g =>
    (md.map (fun t => t.1)).Nodup ∧
    ∀ t ∈ md, t.1 ∈ g.present →
      (dget g.heap t.1).map (fun n => (n.pos_x, n.pos_y)) = some (t.2.1, t.2.2.1)
  | .editPrompt nid old_text _, g =>
    nid ∈ g.present → (dget g.heap nid).map Node.prompt = some old_text
  | .editOutput nid old_text _, g =>
    nid ∈ g.present → (dget g.heap nid).map Node.cached_output = some old_text
  | .renameNode nid old_name _, g =>
    nid ∈ g.present → (dget g.heap nid).map Node.name = some old_name
  | _, _ => False

theorem cm_exec_undo_graphs (m : CommandManager) (c : Cmd) (hms : 1 ≤ m.max_stack_size) :
    ((m.execute c).undo).graph = c.undo (c.execute m.graph) ∧
    (((m.execute c).undo).redo).graph = c.execute (c.undo (c.execute m.graph)) := by
  have hlast : ((m.execute c).undo_stack).getLast? = some c := by
    show (if m.max_stack_size < (m.undo_stack ++ [c]).length then (m.undo_stack ++ [c]).drop 1
      else m.undo_stack ++ [c]).getLast? = some c
    by_cases hcond : m.max_stack_size < (m.undo_stack ++ [c]).length
    · rw [if_pos hcond]
      cases hus : m.undo_stack with
      | nil =>
        rw [hus] at hcond
        simp only [List.nil_append, List.length_singleton] at hcond
        omega
      | cons u us =>
        exact List.getLast?_concat _
    · rw [if_neg hcond]
      exact List.getLast?_concat _
  have hundo : (m.execute c).undo =
      { graph := c.undo (c.execute m.graph)
        undo_stack := ((m.execute c).undo_stack).dropLast
        redo_stack := [c]
        max_stack_size := m.max_stack_size } := by
    unfold CommandManager.undo
    rw [hlast]
    rfl
  refine ⟨by rw [hundo], ?_⟩
  rw [hundo]
  rfl

theorem addNode_restore (g : Graph) (nid : Str)
    (hmap : (dget g.heap nid).map Node.id = some nid) (hnp : nid ∉ g.present)
    (hlinks : ∀ p ∈ g.links, p.2.source_id ≠ nid ∧ p.2.target_id ≠ nid) :
    (g.add_node_ref nid).remove_node nid = g := by
  cases hdget : dget g.heap nid with
  | none =>
    rw [hdget] at hmap
    exact Option.noConfusion hmap
  | some n =>
    rw [hdget] at hmap
    have hid : n.id = nid := Option.some.inj hmap
    have hexec : g.add_node_ref nid = { g with present := g.present ++ [nid] } := by
      unfold Graph.add_node_ref
      rw [hdget]
      dsimp only
      unfold Graph.add_node
      rw [hid, dinsert_dget_self _ _ _ hdget, if_neg hnp]
    rw [hexec]
    unfold Graph.remove_node
    dsimp only
    rw [if_pos (List.mem_append.mpr (Or.inr (List.mem_singleton.mpr rfl)))]
    have herase : (g.present ++ [nid]).erase nid = g.present := by
      rw [List.erase_append_right _ hnp]
      simp
    rw [herase]
    have hfil : (g.links.filter
        (fun p => p.2.source_id = nid ∨ p.2.target_id = nid) : List (Str × Link)) = [] := by
      rw [List.filter_eq_nil_iff]
      intro p hp
      simp only [decide_eq_true_eq]
      intro hor
      rcases hor with h1 | h1
      · exact (hlinks p hp).1 h1
      · exact (hlinks p hp).2 h1
    rw [hfil, List.map_nil, List.foldl_nil]

theorem guarded_restore (g : Graph) (nid : Str) (f f' : Node → Node)
    (hff : nid ∈ g.present → ∀ n, dget g.heap nid = some n → f' (f n) = n) :
    (if nid ∈ (if nid ∈ g.present then g.updNode nid f else g).present
       then (if nid ∈ g.present then g.updNode nid f else g).updNode nid f'
       else (if nid ∈ g.present then g.updNode nid f else g)) = g := by
  by_cases hp : nid ∈ g.present
  · rw [if_pos hp]
    rw [if_pos (show nid ∈ (g.updNode nid f).present by rw [updNode_present]; exact hp)]
    exact updNode_restore g nid f f' (hff hp)
  · rw [if_neg hp, if_neg hp]

theorem editOutput_restore (g : Graph) (nid old_text new_text : Str)
    (h : nid ∈ g.present → (dget g.heap nid).map Node.cached_output = some old_text) :
    (Cmd.editOutput nid old_text new_text).undo
      ((Cmd.editOutput nid old_text new_text).execute g) = g := by
  show (if nid ∈ (if nid ∈ g.present
        then g.updNode nid (fun n => { n with cached_output := new_text }) else g).present
      then (if nid ∈ g.present
        then g.updNode nid (fun n => { n with cached_output := new_text }) else g).updNode nid
          (fun n => { n with cached_output := old_text })
      else (if nid ∈ g.present
        then g.updNode nid (fun n => { n with cached_output := new_text }) else g)) = g
  refine guarded_restore g nid _ _ ?_
  intro hp n hn
  have h2 := h hp
  rw [hn] at h2
  have hco : n.cached_output = old_text := Option.some.inj h2
  show { { n with cached_output := new_text } with cached_output := old_text } = n
  rw [← hco]

theorem renameNode_restore (g : Graph) (nid old_name new_name : Str)
    (h : nid ∈ g.present → (dget g.heap nid).map Node.name = some old_name) :
    (Cmd.renameNode nid old_name new_name).undo
      ((Cmd.renameNode nid old_name new_name).execute g) = g := by
  show (if nid ∈ (if nid ∈ g.present
        then g.updNode nid (fun n => { n with name := new_name }) else g).present
      then (if nid ∈ g.present
        then g.updNode nid (fun n => { n with name := new_name }) else g).updNode nid
          (fun n => { n with name := old_name })
      else (if nid ∈ g.present
        then g.updNode nid (fun n => { n with name := new_name }) else g)) = g
  refine guarded_restore g nid _ _ ?_
  intro hp n hn
  have h2 := h hp
  rw [hn] at h2
  have hna : n.name = old_name := Option.some.inj h2
  show { { n with name := new_name } with name := old_name } = n
  rw [← hna]

theorem moveStep_comm (t s : MoveDatum) (h : Graph) (hne : t.1 ≠ s.1) :
    moveStepOld (moveStepNew h s) t = moveStepNew (moveStepOld h t) s := by
  by_cases hs : s.1 ∈ h.present <;> by_cases ht : t.1 ∈ h.present <;>
    simp only [moveStepNew, moveStepOld, updNode_present, hs, ht, if_true, if_false]
  exact updNode_comm h s.1 t.1 _ _ (Ne.symm hne)

theorem moveStepOld_foldl_comm (md : List MoveDatum) (t : MoveDatum)
    (hnin : ∀ s ∈ md, t.1 ≠ s.1) :
    ∀ h, moveStepOld (md.foldl moveStepNew h) t = md.foldl moveStepNew (moveStepOld h t) := by
  induction md with
  | nil => intro h; rfl
  | cons s rest ih =>
    intro h
    rw [List.foldl_cons, List.foldl_cons]
    rw [ih (fun x hx => hnin x (List.mem_cons_of_mem _ hx))]
    rw [moveStep_comm t s h (hnin s (List.mem_cons_self _ _))]

theorem moveStep_restore (g : Graph) (t : MoveDatum)
    (h : t.1 ∈ g.present →
      (dget g.heap t.1).map (fun n => (n.pos_x, n.pos_y)) = some (t.2.1, t.2.2.1)) :
    moveStepOld (moveStepNew g t) t = g := by
  unfold moveStepNew moveStepOld
  by_cases hp : t.1 ∈ g.present
  · rw [if_pos hp]
    rw [if_pos (show t.1 ∈ (g.updNode t.1
      (fun n => { n with pos_x := t.2.2.2.1, pos_y := t.2.2.2.2 })).present by
        rw [updNode_present]; exact hp)]
    refine updNode_restore g t.1 _ _ ?_
    intro n hn
    have h2 := h hp
    rw [hn] at h2
    have hxy := Option.some.inj h2
    have hx : n.pos_x = t.2.1 := congrArg Prod.fst hxy
    have hy : n.pos_y = t.2.2.1 := congrArg Prod.snd hxy
    show { { n with pos_x := t.2.2.2.1, pos_y := t.2.2.2.2 } with
      pos_x := t.2.1, pos_y := t.2.2.1 } = n
    rw [← hx, ← hy]
  · rw [if_neg hp, if_neg hp]

theorem moveNodes_restore (md : List MoveDatum) : ∀ (g : Graph),
    (md.map (fun t => t.1)).Nodup →
    (∀ t ∈ md, t.1 ∈ g.present →
      (dget g.heap t.1).map (fun n => (n.pos_x, n.pos_y)) = some (t.2.1, t.2.2.1)) →
    md.foldl moveStepOld (md.foldl moveStepNew g) = g := by
  induction md with
  | nil => intro g _ _; rfl
  | cons t rest ih =>
    intro g hnodup hold
    have hnodup' : (t.1 :: rest.map (fun s => s.1)).Nodup := by simpa using hnodup
    rw [List.foldl_cons, List.foldl_cons]
    have hnin : ∀ s ∈ rest, t.1 ≠ s.1 := by
      intro s hs heq
      exact (List.nodup_cons.mp hnodup').1 (by rw [heq]; exact List.mem_map_of_mem _ hs)
    rw [moveStepOld_foldl_comm rest t hnin, moveStep_restore g t (hold t (List.mem_cons_self _ _))]
    exact ih g (List.nodup_cons.mp hnodup').2 (fun s hs => hold s (List.mem_cons_of_mem _ hs))

theorem editPrompt_undo_effect (g : Graph) (nid old_text new_text : Str)
    (h : nid ∈ g.present → (dget g.heap nid).map Node.prompt = some old_text) :
    ((Cmd.editPrompt nid old_text new_text).undo
        ((Cmd.editPrompt nid old_text new_text).execute g)).present = g.present ∧
    ((Cmd.editPrompt nid old_text new_text).undo
        ((Cmd.editPrompt nid old_text new_text).execute g)).links = g.links ∧
    ((Cmd.editPrompt nid old_text new_text).undo
        ((Cmd.editPrompt nid old_text new_text).execute g)).global_token_limit
      = g.global_token_limit ∧
    (∀ id, dget ((Cmd.editPrompt nid old_text new_text).undo
        ((Cmd.editPrompt nid old_text new_text).execute g)).heap id = dget g.heap id ∨
      ∃ n, dget g.heap id = some n ∧
        dget ((Cmd.editPrompt nid old_text new_text).undo
          ((Cmd.editPrompt nid old_text new_text).execute g)).heap id
          = some { n with is_dirty := true }) ∧
    (Cmd.editPrompt nid old_text new_text).execute
        ((Cmd.editPrompt nid old_text new_text).undo
          ((Cmd.editPrompt nid old_text new_text).execute g))
      = (Cmd.editPrompt nid old_text new_text).execute g := by
  by_cases hp : nid ∈ g.present
  case neg =>
    have hE : (Cmd.editPrompt nid old_text new_text).execute g = g := if_neg hp
    have hU : (Cmd.editPrompt nid old_text new_text).undo g = g := if_neg hp
    rw [hE, hU]
    exact ⟨rfl, rfl, rfl, fun id => Or.inl rfl, hE⟩
  case pos =>
    obtain ⟨n0, hd0, hpr0⟩ : ∃ n0, dget g.heap nid = some n0 ∧ n0.prompt = old_text := by
      have h2 := h hp
      cases hd : dget g.heap nid with
      | none => rw [hd] at h2; exact Option.noConfusion h2
      | some n0 => rw [hd] at h2; exact ⟨n0, rfl, Option.some.inj h2⟩
    have hE : (Cmd.editPrompt nid old_text new_text).execute g
        = (g.updNode nid (fun n => { n with prompt := new_text })).mark_dirty nid := if_pos hp
    rw [hE]
    set A := g.updNode nid (fun n => { n with prompt := new_text }) with hAdef
    have hApres : A.present = g.present := updNode_present g nid _
    have hAlinks : A.links = g.links := updNode_links g nid _
    have hAgtl : A.global_token_limit = g.global_token_limit := updNode_gtl g nid _
    have hAeq : A = { g with heap := dinsert g.heap nid { n0 with prompt := new_text } } :=
      updNode_eq g nid _ n0 hd0
    have hAget : dget A.heap nid = some { n0 with prompt := new_text } := by
      rw [hAeq]
      exact dget_dinsert_self _ _ _
    have hAgetne : ∀ id, id ≠ nid → dget A.heap id = dget g.heap id := by
      intro id hne
      rw [hAeq]
      exact dget_dinsert_ne _ _ _ _ hne
    have hP : markPreserves A (A.mark_dirty nid) := markDirtyAux_preserves _ A nid
    obtain ⟨hPl, hPp, hPh⟩ := hP
    set M := A.mark_dirty nid with hMdef
    have hMp : M.present = g.present := hPp.trans hApres
    have hMl : M.links = g.links := hPl.trans hAlinks
    have hMgtl : M.global_token_limit = g.global_token_limit := by
      rw [hMdef, mark_dirty_gtl, hAgtl]
    have hMmem : nid ∈ M.present := by rw [hMp]; exact hp
    have hMdirty : M.nodeDirty nid = true := by
      rw [hMdef]
      exact mark_dirty_dirty_after A nid { n0 with prompt := new_text }
        (by rw [hApres]; exact hp) hAget
    obtain ⟨n1, hg1, hn1d⟩ : ∃ n1, dget M.heap nid = some n1 ∧ n1.is_dirty = true := by
      unfold Graph.nodeDirty Graph.getNode at hMdirty
      rw [if_pos hMmem] at hMdirty
      cases hg : dget M.heap nid with
      | none => rw [hg] at hMdirty; exact Bool.noConfusion hMdirty
      | some n1 => rw [hg] at hMdirty; exact ⟨n1, rfl, hMdirty⟩
    have hU : (Cmd.editPrompt nid old_text new_text).undo M
        = (M.updNode nid (fun n => { n with prompt := old_text })).mark_dirty nid := if_pos hMmem
    rw [hU]
    set B := M.updNode nid (fun n => { n with prompt := old_text }) with hBdef
    have hBeq : B = { M with heap := dinsert M.heap nid { n1 with prompt := old_text } } :=
      updNode_eq M nid _ n1 hg1
    have hBget : dget B.heap nid = some { n1 with prompt := old_text } := by
      rw [hBeq]
      exact dget_dinsert_self _ _ _
    have hBp : B.present = g.present := (updNode_present M nid _).trans hMp
    have hBl : B.links = g.links := (updNode_links M nid _).trans hMl
    have hBgtl : B.global_token_limit = g.global_token_limit := (updNode_gtl M nid _).trans hMgtl
    have hBmem : nid ∈ B.present := by rw [hBp]; exact hp
    have hBdirty : B.nodeDirty nid = true := by
      unfold Graph.nodeDirty Graph.getNode
      rw [if_pos hBmem, hBget]
      exact hn1d
    rw [mark_dirty_id_of_dirty B nid hBdirty]
    refine ⟨hBp, hBl, hBgtl, ?_, ?_⟩
    · intro id
      by_cases hid : id = nid
      · subst hid
        rcases hPh id with hL | ⟨nn, hgA, hg1'⟩
        · rw [hAget] at hL
          rw [hL] at hg1
          have hn1 : n1 = { n0 with prompt := new_text } := (Option.some.inj hg1).symm
          left
          rw [hBget, hd0, hn1, ← hpr0]
        · rw [hAget] at hgA
          have hnn : nn = { n0 with prompt := new_text } := (Option.some.inj hgA).symm
          rw [hg1'] at hg1
          have hn1 : n1 = { nn with is_dirty := true } := (Option.some.inj hg1).symm
          right
          refine ⟨n0, hd0, ?_⟩
          rw [hBget, hn1, hnn, ← hpr0]
      · have hBne : dget B.heap id = dget M.heap id := by
          rw [hBeq]
          exact dget_dinsert_ne _ _ _ _ hid
        rcases hPh id with hL | ⟨nn, hgA, hgM⟩
        · left
          rw [hBne, hL, hAgetne id hid]
        · right
          exact ⟨nn, (hAgetne id hid) ▸ hgA, hBne.trans hgM⟩
    · have hE2 : (Cmd.editPrompt nid old_text new_text).execute B
          = (B.updNode nid (fun n => { n with prompt := new_text })).mark_dirty nid :=
        if_pos hBmem
      rw [hE2]
      have hn1p : n1.prompt = new_text := by
        rcases hPh nid with hL | ⟨nn, hgA, hg1'⟩
        · rw [hAget] at hL
          rw [hL] at hg1
          rw [← (Option.some.inj hg1)]
        · rw [hAget] at hgA
          have hnn : nn = { n0 with prompt := new_text } := (Option.some.inj hgA).symm
          rw [hg1'] at hg1
          rw [← (Option.some.inj hg1), hnn]
      have hB2 : B.updNode nid (fun n => { n with prompt := new_text }) = M := by
        have hYn1 : ({ { n1 with prompt := old_text } with prompt := new_text } : Node) = n1 := by
          rw [← hn1p]
        rw [updNode_eq B nid _ { n1 with prompt := old_text } hBget, hYn1]
        have hBheap : dinsert B.heap nid n1 = M.heap := by
          rw [hBeq]
          show dinsert (dinsert M.heap nid { n1 with prompt := old_text }) nid n1 = M.heap
          rw [dinsert_dinsert, dinsert_dget_self _ _ _ hg1]
        rw [hBheap, (updNode_present M nid _ : B.present = M.present),
          (updNode_links M nid _ : B.links = M.links),
          (updNode_gtl M nid _ : B.global_token_limit = M.global_token_limit)]
      rw [hB2, mark_dirty_id_of_dirty M nid hMdirty]

/-- C1 (amended): for commands that never run `mark_dirty`
(`AddNodeCommand` of a fresh unlinked node, `MoveNodesCommand` over distinct
nodes, `EditOutputCommand`, `RenameNodeCommand`) whose captured old values match
the live graph, `CommandManager.execute` followed by `undo` restores the graph
bit-for-bit; for `EditPromptCommand` it restores the node dict, the links and
every stored node field except `is_dirty`, which can only be raised (undo runs
`mark_dirty` again instead of restoring flags).  In all these cases `redo` after
`undo` reproduces the post-execute graph exactly. -/
theorem C1_amended_exec_undo_redo (m : CommandManager) (c : Cmd)
    (hms : 1 ≤ m.max_stack_size) (h : c.undoable m.graph) :
    ((m.execute c).undo).graph.present = m.graph.present ∧
    ((m.execute c).undo).graph.links = m.graph.links ∧
    ((m.execute c).undo).graph.global_token_limit = m.graph.global_token_limit ∧
    (∀ id, dget ((m.execute c).undo).graph.heap id = dget m.graph.heap id ∨
      ∃ n, dget m.graph.heap id = some n ∧
        dget ((m.execute c).undo).graph.heap id = some { n with is_dirty := true }) ∧
    ((∀ nid o nw, c ≠ Cmd.editPrompt nid o nw) → ((m.execute c).undo).graph = m.graph) ∧
    (((m.execute c).undo).redo).graph = (m.execute c).graph := by
  obtain ⟨hu, hr⟩ := cm_exec_undo_graphs m c hms
  have hx : (m.execute c).graph = c.execute m.graph := rfl
  rw [hu, hr, hx]
  cases c with
  | addNode nid =>
    obtain ⟨hmap, hnp, hlinks⟩ := h
    have hex : Cmd.undo (Cmd.addNode nid) (Cmd.execute (Cmd.addNode nid) m.graph) = m.graph :=
      addNode_restore m.graph nid hmap hnp hlinks
    rw [hex]
    exact ⟨rfl, rfl, rfl, fun id => Or.inl rfl, fun _ => rfl, rfl⟩
  | moveNodes md =>
    obtain ⟨hnodup, hold⟩ := h
    have hex : Cmd.undo (Cmd.moveNodes md) (Cmd.execute (Cmd.moveNodes md) m.graph) = m.graph :=
      moveNodes_restore md m.graph hnodup hold
    rw [hex]
    exact ⟨rfl, rfl, rfl, fun id => Or.inl rfl, fun _ => rfl, rfl⟩
  | editOutput nid o nw =>
    have hex := editOutput_restore m.graph nid o nw h
    rw [hex]
    exact ⟨rfl, rfl, rfl, fun id => Or.inl rfl, fun _ => rfl, rfl⟩
  | renameNode nid o nw =>
    have hex := renameNode_restore m.graph nid o nw h
    rw [hex]
    exact ⟨rfl, rfl, rfl, fun id => Or.inl rfl, fun _ => rfl, rfl⟩
  | editPrompt nid o nw =>
    obtain ⟨h1, h2, h3, h4, h5⟩ := editPrompt_undo_effect m.graph nid o nw h
    exact ⟨h1, h2, h3, h4, fun hne => absurd rfl (hne nid o nw), h5⟩
  | deleteNodes nids links => exact False.elim h
  | addLink link => exact False.elim h
  | deleteLink link => exact False.elim h
  | pasteNodesAndLinks nids links => exact False.elim h

/-- Source node of the counterexample graph. -/
def nC1s : Node := defNode "s".toList

/-- Target node of the counterexample graph, with two incoming links. -/
def nC1t : Node := { defNode "t".toList with input_links := ["l1".toList, "l2".toList] }

def lC1a : Link := { source_id := "s".toList, target_id := "t".toList, id := "l1".toList }

def lC1b : Link := { source_id := "s".toList, target_id := "t".toList, id := "l2".toList }

/-- Counterexample graph: clean nodes `s`, `t` with links `l1, l2 : s → t`. -/
def gC1 : Graph :=
  { heap := [("s".toList, nC1s), ("t".toList, nC1t)]
    present := ["s".toList, "t".toList]
    links := [("l1".toList, lC1a), ("l2".toList, lC1b)]
    global_token_limit := 16384 }

def mC1 : CommandManager :=
  { graph := gC1, undo_stack := [], redo_stack := [], max_stack_size := 50 }

def cC1 : Cmd := Cmd.deleteLink lC1a

/-- C1 counterexample: deleting link `l1` via the command stack and undoing does
not restore the prior graph: the target node is left dirty (it was clean), and
its `input_links` list comes back reordered (`undo` re-appends the restored link
id at the end). -/
theorem C1_counterexample :
    ((mC1.execute cC1).undo).graph ≠ mC1.graph ∧
    ((mC1.execute cC1).undo).graph.nodeDirty "t".toList = true ∧
    mC1.graph.nodeDirty "t".toList = false ∧
    (((mC1.execute cC1).undo).graph.getNode "t".toList).map Node.input_links
      = some ["l2".toList, "l1".toList] ∧
    (mC1.graph.getNode "t".toList).map Node.input_links
      = some ["l1".toList, "l2".toList] := by decide

/-- Witness node for the C1 amended theorem: clean, prompt `"old"`. -/
def nW1 : Node := { defNode "n".toList with prompt := "old".toList }

def gW1 : Graph :=
  { heap := [("n".toList, nW1)]
    present := ["n".toList]
    links := []
    global_token_limit := 16384 }

def mW1 : CommandManager :=
  { graph := gW1, undo_stack := [], redo_stack := [], max_stack_size := 50 }

def cW1 : Cmd := Cmd.editPrompt "n".toList "old".toList "new".toList

/-- C1 witness: the amended theorem instantiated on a concrete one-node graph
and a concrete `EditPromptCommand`, with both hypotheses discharged there. -/
theorem C1_amended_exec_undo_redo_witness :
    1 ≤ mW1.max_stack_size ∧ cW1.undoable mW1.graph ∧
    (((mW1.execute cW1).undo).graph.present = mW1.graph.present ∧
    ((mW1.execute cW1).undo).graph.links = mW1.graph.links ∧
    ((mW1.execute cW1).undo).graph.global_token_limit = mW1.graph.global_token_limit ∧
    (∀ id, dget ((mW1.execute cW1).undo).graph.heap id = dget mW1.graph.heap id ∨
      ∃ n, dget mW1.graph.heap id = some n ∧
        dget ((mW1.execute cW1).undo).graph.heap id = some { n with is_dirty := true }) ∧
    ((∀ nid o nw, cW1 ≠ Cmd.editPrompt nid o nw) → ((mW1.execute cW1).undo).graph = mW1.graph) ∧
    (((mW1.execute cW1).undo).redo).graph = (mW1.execute cW1).graph) :=
  ⟨by decide,
   by
    show "n".toList ∈ gW1.present →
      (dget gW1.heap "n".toList).map Node.prompt = some "old".toList
    decide,
   C1_amended_exec_undo_redo mW1 cW1 (by decide) (by
    show "n".toList ∈ gW1.present →
      (dget gW1.heap "n".toList).map Node.prompt = some "old".toList
    decide)⟩

end LLMNG
